import Mathlib

/-!
Verification of the selection pipeline of the news digest bot (src/main.py).

The pure core of the program — text normalisation, keyword/topic scoring,
History Store dedup and daily quota tracking, and the multi-pool
ranking/fallback/diversity selector — is embedded below over lists of
characters and explicit store values.  Titles and keywords are `List Char`
(Python `str`); URLs, subreddit names, topic names and day keys are `String`
and are only compared for equality.
-/

/-- Whitespace characters of the regex class `\s` (ASCII range),
    as used by `re.sub` and `str.strip` in `norm_text`. -/
def isWs (c : Char) : Bool :=
  c == ' ' || c == '\t' || c == '\n' || c == '\r' || c == '\x0b' || c == '\x0c'

/-- One pass of Python `re.sub(r"\s+", " ", s)`: every maximal run of
    whitespace characters is replaced by a single space.  The boolean records
    whether the previous character belonged to a run already replaced. -/
def collapseWs : Bool → List Char → List Char
  | _, [] => []
  | prevWs, c :: cs =>
    if isWs c then
      if prevWs then collapseWs true cs else ' ' :: collapseWs true cs
    else c :: collapseWs false cs

/-- Remove trailing whitespace. -/
def dropTrailWs (l : List Char) : List Char :=
  (l.reverse.dropWhile isWs).reverse

/-- Python `str.strip()`: remove leading and trailing whitespace. -/
def stripWs (l : List Char) : List Char :=
  dropTrailWs (l.dropWhile isWs)

/-- `norm_text` from src/main.py: lower-case, collapse whitespace runs to a
    single space, strip both ends. -/
def norm_text (s : List Char) : List Char :=
  stripWs (collapseWs false (s.map Char.toLower))

/-- Does `kw` occur at the head of `t`?  (List-of-chars prefix test.) -/
def leadsList : List Char → List Char → Bool
  | [], _ => true
  | _ :: _, [] => false
  | a :: as, b :: bs => a == b && leadsList as bs

/-- Python `kw in text`: substring containment. -/
def inText (kw : List Char) : List Char → Bool
  | [] => leadsList kw []
  | c :: t => leadsList kw (c :: t) || inText kw t

/-- Python `str.isalpha` (ASCII letters): nonempty and all alphabetic. -/
def pyIsAlpha (kw : List Char) : Bool :=
  !kw.isEmpty && kw.all Char.isAlpha

/-- `kw_in_text` from src/main.py.  The middle branch translates
    `re.search(rf"\\b{re.escape(kw)}\\b", text)`: inside a raw f-string the
    pattern contains backslash backslash b, which the regex engine reads as an
    escaped literal backslash followed by the letter b, so the search looks for
    the literal two-character sequence backslash-b on both sides of the keyword
    (the keyword itself is alphabetic in this branch, so `re.escape` leaves it
    unchanged) — not for a word boundary. -/
def kw_in_text (text kw : List Char) : Bool :=
  if ' ' ∈ kw then inText kw text
  else if pyIsAlpha kw ∧ kw.length ≤ 3 then
    inText ('\\' :: 'b' :: kw ++ ['\\', 'b']) text
  else inText kw text

/-- A word character in the sense of the regex class `\w` (ASCII). -/
def isWordChar (c : Char) : Bool := c.isAlphanum || c == '_'

/-- After `kw` is matched at the head of `t`, is the position following the
    match a word boundary (end of text or a non-word character)? -/
def boundaryAfter (kw t : List Char) : Bool :=
  match t.drop kw.length with
  | [] => true
  | c :: _ => !isWordChar c

/-- Scans `text` for an occurrence of `kw` preceded and followed by a word
    boundary; `prev` records whether the previous character was a word
    character.  This is the behaviour the specification prescribes for short
    alphabetic keywords (`re.search(rf"\b{kw}\b", text)`). -/
def wbMatchAux (kw : List Char) (prev : Bool) : List Char → Bool
  | [] => !prev && leadsList kw [] && boundaryAfter kw []
  | c :: t =>
    (!prev && leadsList kw (c :: t) && boundaryAfter kw (c :: t)) ||
      wbMatchAux kw (isWordChar c) t

/-- Word-boundary occurrence of `kw` in `text` (the spec's match rule for
    short alphabetic keywords). -/
def wbMatch (kw text : List Char) : Bool := wbMatchAux kw false text

/-- Number of positions of `text` at which `kw` occurs as a substring
    (occurrences may overlap, each start position counts once). -/
def occCount (kw : List Char) : List Char → Nat
  | [] => if leadsList kw [] then 1 else 0
  | c :: t => (if leadsList kw (c :: t) then 1 else 0) + occCount kw t

/-- Number of word-boundary occurrences of `kw` in the text (one per start
    position at which `kw` occurs surrounded by word boundaries); `prev`
    records whether the previous character was a word character. -/
def wbOccCount (kw : List Char) : Bool → List Char → Nat
  | prev, [] =>
    if !prev && leadsList kw [] && boundaryAfter kw [] then 1 else 0
  | prev, c :: t =>
    (if !prev && leadsList kw (c :: t) && boundaryAfter kw (c :: t) then 1 else 0) +
      wbOccCount kw (isWordChar c) t

/-- Occurrence count of one keyword under the specification's match rule:
    multi-word and long keywords count substring start positions, short
    alphabetic keywords count word-boundary occurrences. -/
def specOccOfKw (text kw : List Char) : Nat :=
  if ' ' ∈ kw then occCount kw text
  else if pyIsAlpha kw ∧ kw.length ≤ 3 then wbOccCount kw false text
  else occCount kw text

/-- Keyword lists of `TOPIC_KEYWORDS` in src/main.py. -/
def kwEUBig : List (List Char) :=
  ["eu".data, "european commission".data, "ukraine".data, "russia".data]

def kwLuxImmigration : List (List Char) :=
  ["luxembourg".data, "residence".data, "visa".data, "blue card".data,
   "schengen".data, "immigration".data]

def kwQuantFin : List (List Char) :=
  ["quant".data, "trading".data, "crypto".data, "volatility".data, "ecb".data,
   "rates".data, "inflation".data, "market".data]

def kwResearchEngineering : List (List Char) :=
  ["research".data, "paper".data, "university".data, "aerospace".data,
   "wind".data, "grid".data, "nuclear".data, "semiconductor".data, "ai".data]

def kwSpace : List (List Char) :=
  ["nasa".data, "esa".data, "launch".data, "satellite".data, "space".data,
   "astronomy".data]

def kwTaiwanLife : List (List Char) :=
  ["taiwan".data, "lgbtq".data, "gender".data, "childcare".data,
   "fertility".data, "marriage".data, "cost of living".data, "saving".data]

/-- `TOPIC_KEYWORDS` from src/main.py, in dict insertion order. -/
def TOPIC_KEYWORDS : List (String × List (List Char)) :=
  [("EU_big", kwEUBig),
   ("Lux_immigration", kwLuxImmigration),
   ("Quant_fin", kwQuantFin),
   ("Research_engineering", kwResearchEngineering),
   ("Space", kwSpace),
   ("Taiwan_life", kwTaiwanLife)]

/-- The inner `for kw in kws: if kw_in_text(text, kw): hits += 1` loop of
    `topic_hits_in_title` and `topic_label`, with its running counter. -/
def kwLoop (text : List Char) : List (List Char) → Nat → Nat
  | [], acc => acc
  | kw :: rest, acc => kwLoop text rest (if kw_in_text text kw then acc + 1 else acc)

/-- The outer loop of `topic_hits_in_title` over all topics. -/
def hitsAux (text : List Char) : List (String × List (List Char)) → Nat → Nat
  | [], acc => acc
  | (_, kws) :: rest, acc => hitsAux text rest (kwLoop text kws acc)

/-- `topic_hits_in_title` from src/main.py. -/
def topic_hits_in_title (title : List Char) : Nat :=
  hitsAux (norm_text title) TOPIC_KEYWORDS 0

/-- The loop of `topic_label`, carrying the best topic and best hit count. -/
def labelAux (text : List Char) :
    List (String × List (List Char)) → Option String → Nat → Option String × Nat
  | [], bt, bh => (bt, bh)
  | (topic, kws) :: rest, bt, bh =>
    let hits := kwLoop text kws 0
    if bh < hits then labelAux text rest (some topic) hits
    else labelAux text rest bt bh

/-- `topic_label` from src/main.py: the first topic reaching the maximal hit
    count (`hits > best_hits` updates), paired with that count. -/
def topic_label (title : List Char) : Option String × Nat :=
  labelAux (norm_text title) TOPIC_KEYWORDS none 0

/-- `lux_immigration_hit` from src/main.py. -/
def lux_immigration_hit (title : List Char) : Bool :=
  kwLuxImmigration.any (fun kw => kw_in_text (norm_text title) kw)

/-- The claim's reading of `topicHits`: the total count of keyword
    occurrences across all topics in the normalised title, one count per
    occurrence, duplicates across topics counted separately. -/
def spec_topic_occurrences (title : List Char) : Nat :=
  (TOPIC_KEYWORDS.map
    (fun p => (p.2.map (specOccOfKw (norm_text title))).sum)).sum

/-- The persistent store of src/main.py: the `seen` table (URL, timestamp),
    the `seen_title` table (normalised title, timestamp) and the
    `subreddit_daily` table ((day, subreddit), count). -/
structure Store where
  seen : List (String × Int)
  seen_title : List (List Char × Int)
  subreddit_daily : List ((String × String) × Nat)
deriving DecidableEq, Repr

/-- `already_seen` from src/main.py: either key matches. -/
def already_seen (store : Store) (url : String) (title_norm : List Char) : Bool :=
  store.seen.any (fun r => r.1 == url) ||
    store.seen_title.any (fun r => r.1 == title_norm)

/-- `INSERT OR IGNORE`: keep the table unchanged when the key is present,
    otherwise append the new row. -/
def insertIgnore {κ : Type} [BEq κ] (tbl : List (κ × Int)) (k : κ) (ts : Int) :
    List (κ × Int) :=
  if tbl.any (fun r => r.1 == k) then tbl else tbl ++ [(k, ts)]

/-- `mark_seen` from src/main.py: idempotent insert of both keys. -/
def mark_seen (store : Store) (url : String) (title_norm : List Char) (ts : Int) :
    Store :=
  { store with seen := insertIgnore store.seen url ts,
               seen_title := insertIgnore store.seen_title title_norm ts }

/-- `get_used_subreddits_today` from src/main.py. -/
def get_used_subreddits_today (store : Store) (day : String) : Finset String :=
  ((store.subreddit_daily.filter (fun r => r.1.1 == day)).map (fun r => r.1.2)).toFinset

/-- `mark_subreddit_used` from src/main.py: upsert incrementing the counter. -/
def mark_subreddit_used (store : Store) (day sub : String) : Store :=
  { store with subreddit_daily :=
      if store.subreddit_daily.any (fun r => r.1 == (day, sub)) then
        (store.subreddit_daily.map
          (fun r => if r.1 == (day, sub) then (r.1, r.2 + 1) else r))
      else store.subreddit_daily ++ [((day, sub), 1)] }

/-- A raw news item as handed to `main` by the fetch collaborators. -/
structure NItem where
  source : String
  title : List Char
  url : String
  published_ts : Int
  summary : List Char
deriving DecidableEq, Repr

/-- A raw reddit item as handed to `main` by `fetch_reddit_hot`. -/
structure RItem where
  subreddit : String
  title : List Char
  url : String
  published_ts : Int
  score : Int
  comments : Int
  popularity : Int
deriving DecidableEq, Repr

/-- A news item after the classification/enrichment loop in `main`. -/
structure NewsC where
  source : String
  title : List Char
  url : String
  published_ts : Int
  summary : List Char
  title_norm : List Char
  topic_hits : Nat
  topic : Option String
  topic_hits_primary : Nat
  lux_hit : Bool
  is_seen : Bool
  in_window : Bool
deriving DecidableEq, Repr

/-- A reddit item after the enrichment loop in `main`. -/
structure RedditC where
  subreddit : String
  title : List Char
  url : String
  published_ts : Int
  score : Int
  comments : Int
  popularity : Int
  title_norm : List Char
  is_seen : Bool
  in_window : Bool
deriving DecidableEq, Repr

def LOOKBACK_HOURS_NEWS : Int := 6
def LOOKBACK_HOURS_REDDIT : Int := 48
def TOTAL_PUSH_COUNT : Nat := 5
def FIXED_REDDIT_COUNT : Nat := 2
def OTHER_NEWS_COUNT : Nat := TOTAL_PUSH_COUNT - FIXED_REDDIT_COUNT
def lux_sub : String := "Luxembourg"

/-- Field computation for one news item (lines 362-371 of src/main.py). -/
def enrichNewsItem (store : Store) (cutoff : Int) (it : NItem) : NewsC :=
  let tn := norm_text it.title
  let lbl := topic_label it.title
  { source := it.source, title := it.title, url := it.url,
    published_ts := it.published_ts, summary := it.summary,
    title_norm := tn,
    topic_hits := topic_hits_in_title it.title,
    topic := lbl.1, topic_hits_primary := lbl.2,
    lux_hit := lux_immigration_hit it.title,
    is_seen := already_seen store it.url tn,
    in_window := cutoff ≤ it.published_ts }

/-- The loop of `main` building `news_all_kw` and `news_primary`; items with
    `topic_hits <= 0` are dropped, items in the recency window and not seen
    additionally enter the primary pool. -/
def build_news_pools (store : Store) (cutoff : Int) :
    List NItem → List NewsC × List NewsC
  | [] => ([], [])
  | it :: rest =>
    let x := enrichNewsItem store cutoff it
    let (alls, prim) := build_news_pools store cutoff rest
    if x.topic_hits ≤ 0 then (alls, prim)
    else (x :: alls, if x.in_window && !x.is_seen then x :: prim else prim)

/-- Field computation for one reddit item (lines 377-382 of src/main.py). -/
def enrichRedditItem (store : Store) (cutoff : Int) (it : RItem) : RedditC :=
  let tn := norm_text it.title
  { subreddit := it.subreddit, title := it.title, url := it.url,
    published_ts := it.published_ts, score := it.score,
    comments := it.comments, popularity := it.popularity,
    title_norm := tn,
    is_seen := already_seen store it.url tn,
    in_window := cutoff ≤ it.published_ts }

def build_reddit_all (store : Store) (cutoff : Int) (items : List RItem) :
    List RedditC :=
  items.map (enrichRedditItem store cutoff)

/-- `pick_first` from src/main.py: the first candidate whose URL is not in the
    used set; the URL of the returned item is added to the set. -/
def pick_first {α : Type} (url : α → String) :
    List α → Finset String → Option α × Finset String
  | [], used => (none, used)
  | it :: rest, used =>
    if url it ∈ used then pick_first url rest used
    else (some it, insert (url it) used)

/-- `a` ranks at least as high as `b` under the news key
    `(topic_hits, published_ts)` taken descending. -/
def newsGe (a b : NewsC) : Prop :=
  b.topic_hits < a.topic_hits ∨
    (b.topic_hits = a.topic_hits ∧ b.published_ts ≤ a.published_ts)

instance : DecidableRel newsGe := fun _ _ =>
  inferInstanceAs (Decidable (_ ∨ _))

instance : IsTotal NewsC newsGe :=
  ⟨fun a b => by unfold newsGe; omega⟩

instance : IsTrans NewsC newsGe :=
  ⟨fun a b c h₁ h₂ => by unfold newsGe at *; omega⟩

/-- Python `list.sort(key=(topic_hits, published_ts), reverse=True)`: the
    stable descending sort under the news ranking key (a stable sort for a
    total preorder is unique, so insertion sort computes it). -/
def sortNews (l : List NewsC) : List NewsC := List.insertionSort newsGe l

/-- `a` ranks at least as high as `b` under the reddit key
    `(popularity, published_ts)` taken descending. -/
def redditGe (a b : RedditC) : Prop :=
  b.popularity < a.popularity ∨
    (b.popularity = a.popularity ∧ b.published_ts ≤ a.published_ts)

instance : DecidableRel redditGe := fun _ _ =>
  inferInstanceAs (Decidable (_ ∨ _))

instance : IsTotal RedditC redditGe :=
  ⟨fun a b => by unfold redditGe; omega⟩

instance : IsTrans RedditC redditGe :=
  ⟨fun a b c h₁ h₂ => by unfold redditGe at *; omega⟩

/-- Python `list.sort(key=(popularity, published_ts), reverse=True)`. -/
def sortPop (l : List RedditC) : List RedditC := List.insertionSort redditGe l

/-- Descending comparison by `published_ts` alone (slot-A pools). -/
def tsGe (a b : RedditC) : Prop := b.published_ts ≤ a.published_ts

instance : DecidableRel tsGe := fun _ _ =>
  inferInstanceAs (Decidable (_ ≤ _))

/-- Python `list.sort(key=published_ts, reverse=True)`. -/
def sortTs (l : List RedditC) : List RedditC := List.insertionSort tsGe l

/-- One step of the `topic_counts` initialisation of `pick_news_diverse`:
    count the item's topic when it is truthy (present and nonempty). -/
def updTc (tc : String → Nat) (it : NewsC) : String → Nat :=
  match it.topic with
  | some t => if t ≠ "" then (fun s => if s = t then tc s + 1 else tc s) else tc
  | none => tc

/-- The `topic_counts` initialisation of `pick_news_diverse` (a Python dict
    counting topics of the already-selected items). -/
def init_tc (sel : List NewsC) : String → Nat :=
  sel.foldl updTc (fun _ => 0)

/-- First pass of `pick_news_diverse`: walk the ranked list picking only items
    whose (truthy) topic has count zero, until the limit is reached. -/
def diversePass1 (limit : Nat) :
    List NewsC → List NewsC → Finset String → (String → Nat) →
    List NewsC × Finset String × (String → Nat)
  | [], sel, urls, tc => (sel, urls, tc)
  | it :: rest, sel, urls, tc =>
    if limit ≤ sel.length then (sel, urls, tc)
    else if it.url ∈ urls then diversePass1 limit rest sel urls tc
    else
      match it.topic with
      | some t =>
        if t ≠ "" ∧ tc t = 0 then
          diversePass1 limit rest (sel ++ [it]) (insert it.url urls)
            (fun s => if s = t then 1 else tc s)
        else diversePass1 limit rest sel urls tc
      | none => diversePass1 limit rest sel urls tc

/-- Second pass of `pick_news_diverse`: walk the same ranked list again,
    filling remaining slots regardless of topic repetition. -/
def diversePass2 (limit : Nat) :
    List NewsC → List NewsC → Finset String → (String → Nat) →
    List NewsC × Finset String × (String → Nat)
  | [], sel, urls, tc => (sel, urls, tc)
  | it :: rest, sel, urls, tc =>
    if limit ≤ sel.length then (sel, urls, tc)
    else if it.url ∈ urls then diversePass2 limit rest sel urls tc
    else
      let tc' := match it.topic with
        | some t => if t ≠ "" then (fun s => if s = t then tc s + 1 else tc s) else tc
        | none => tc
      diversePass2 limit rest (sel ++ [it]) (insert it.url urls) tc'

/-- `pick_news_diverse` from src/main.py. -/
def pick_news_diverse (cands sel : List NewsC) (urls : Finset String)
    (limit : Nat) : List NewsC × Finset String :=
  let tc := init_tc sel
  let r1 := diversePass1 limit cands sel urls tc
  let r2 := diversePass2 limit cands r1.1 r1.2.1 r1.2.2
  (r2.1, r2.2.1)

/-- The priority-slot block of the news selection (lines 384-397 of
    src/main.py): one pick from the sorted Luxembourg-immigration pool,
    primary first, otherwise the keyword-positive fallback pool. -/
def select_news_lux (news_all_kw news_primary : List NewsC) :
    List NewsC × Finset String :=
  let lux_news := sortNews (news_primary.filter (fun x => x.lux_hit))
  if lux_news ≠ [] then
    match pick_first (fun x : NewsC => x.url) lux_news ∅ with
    | (some f, u) => ([f], u)
    | (none, u) => ([], u)
  else
    let fb := sortNews (news_all_kw.filter (fun x => x.lux_hit))
    match pick_first (fun x : NewsC => x.url) fb ∅ with
    | (some f, u) => ([f], u)
    | (none, u) => ([], u)

/-- The news selection block of `main` (lines 384-406 of src/main.py):
    priority slot, then the diversity pass over the primary pool, then — when
    slots remain — the diversity pass over the relaxed pool. -/
def select_news (news_all_kw news_primary : List NewsC) :
    List NewsC × Finset String :=
  let r1 := select_news_lux news_all_kw news_primary
  let rem_primary := sortNews (news_primary.filter (fun x => x.url ∉ r1.2))
  let r2 := pick_news_diverse rem_primary r1.1 r1.2 OTHER_NEWS_COUNT
  if r2.1.length < OTHER_NEWS_COUNT then
    let rem_fb := sortNews (news_all_kw.filter (fun x => x.url ∉ r2.2))
    pick_news_diverse rem_fb r2.1 r2.2 OTHER_NEWS_COUNT
  else r2

/-- The `for pool in [primary, fallback]` loop of the slot-A reddit selection:
    take the first pool yielding a pick and stop. -/
def slotALoop : List (List RedditC) → Finset String → List RedditC × Finset String
  | [], urls => ([], urls)
  | pool :: rest, urls =>
    match pick_first (fun x : RedditC => x.url) pool urls with
    | (some p, u) => ([p], u)
    | (none, u) => slotALoop rest u

/-- The slot-A reddit selection (lines 418-438 of src/main.py): Luxembourg
    posts with at least 10 comments, unseen pool first, both pools sorted by
    `published_ts` descending and ignoring the recency window. -/
def select_slotA (reddit_all : List RedditC) : List RedditC × Finset String :=
  let prim := sortTs (reddit_all.filter
    (fun x => x.subreddit == lux_sub && !x.is_seen && decide (10 ≤ x.comments)))
  let fb := sortTs (reddit_all.filter
    (fun x => x.subreddit == lux_sub && decide (10 ≤ x.comments)))
  slotALoop [prim, fb] ∅

/-- The four relaxation pools of the slot-B reddit selection (lines 445-456 of
    src/main.py), each sorted by `(popularity, published_ts)` descending:
    (fresh and unseen), (fresh), (unseen), (all). -/
def slotB_pools (reddit_all : List RedditC) : List (List RedditC) :=
  [sortPop (reddit_all.filter
     (fun x => x.subreddit != lux_sub && x.in_window && !x.is_seen)),
   sortPop (reddit_all.filter (fun x => x.subreddit != lux_sub && x.in_window)),
   sortPop (reddit_all.filter (fun x => x.subreddit != lux_sub && !x.is_seen)),
   sortPop (reddit_all.filter (fun x => x.subreddit != lux_sub))]

/-- The fairness scan inside one pool: the first candidate whose URL is not
    claimed and whose subreddit is not among the groups used today. -/
def fairFind (used claimed : Finset String) (pool : List RedditC) :
    Option RedditC :=
  pool.find? (fun c => decide (c.url ∉ claimed) && decide (c.subreddit ∉ used))

/-- The unconstrained cascade over the pools via `pick_first`. -/
def poolsPickFirst : List (List RedditC) → Finset String →
    Option RedditC × Finset String
  | [], claimed => (none, claimed)
  | pool :: rest, claimed =>
    match pick_first (fun x : RedditC => x.url) pool claimed with
    | (some p, u) => (some p, u)
    | (none, u) => poolsPickFirst rest u

/-- The slot-B selection block of `main` (lines 458-476 of src/main.py): when
    fewer than three distinct groups are used today the fairness scan runs
    over all pools first; when it is skipped or finds nothing, the
    unconstrained cascade decides; the URL of a successful pick is claimed. -/
def select_slotB (pools : List (List RedditC)) (usedPlanned claimed : Finset String) :
    Option RedditC × Finset String :=
  let fairPick :=
    if usedPlanned.card < 3 then pools.findSome? (fairFind usedPlanned claimed)
    else none
  match fairPick with
  | some x => (some x, insert x.url claimed)
  | none =>
    match poolsPickFirst pools claimed with
    | (some x, u) => (some x, insert x.url u)
    | (none, u) => (none, u)

/-- A digest entry: a reddit pick or a news pick. -/
inductive DigestItem
  | reddit (x : RedditC)
  | news (x : NewsC)
deriving DecidableEq, Repr

def DigestItem.url : DigestItem → String
  | reddit x => x.url
  | news x => x.url

def DigestItem.title_norm : DigestItem → List Char
  | reddit x => x.title_norm
  | news x => x.title_norm

def DigestItem.isReddit : DigestItem → Bool
  | reddit _ => true
  | news _ => false

/-- The history/quota write loop at the end of `main` (lines 485-488):
    `mark_seen` for every selected item, `mark_subreddit_used` for the
    selected reddit items. -/
def write_digest (dayKey : String) (ts : Int) : Store → List DigestItem → Store
  | store, [] => store
  | store, it :: rest =>
    let s1 := mark_seen store it.url it.title_norm ts
    let s2 := match it with
      | .reddit x => mark_subreddit_used s1 dayKey x.subreddit
      | .news _ => s1
    write_digest dayKey ts s2 rest

/-- Result of one run of the selection pipeline: the ordered digest, whether
    the "nothing found" sentinel message was sent instead, and the store
    after the run. -/
structure RunResult where
  selected : List DigestItem
  sentinel : Bool
  store : Store
deriving DecidableEq, Repr

/-- The news half of the selection (classification filter, priority slot and
    diversity passes), lines 360-406 of src/main.py. -/
def select_news_full (store : Store) (now : Int) (news_items : List NItem) :
    List NewsC :=
  let pools_news := build_news_pools store (now - LOOKBACK_HOURS_NEWS * 3600) news_items
  (select_news pools_news.1 pools_news.2).1

/-- The reddit half of the selection (slot A then slot B with the daily
    fairness constraint), lines 376-476 of src/main.py. -/
def select_reddit_full (store : Store) (now : Int) (dayKey : String)
    (reddit_items : List RItem) : List RedditC :=
  let reddit_all := build_reddit_all store (now - LOOKBACK_HOURS_REDDIT * 3600) reddit_items
  let rA := select_slotA reddit_all
  let used_today := get_used_subreddits_today store dayKey
  let planned_today := (rA.1.map (fun x => x.subreddit)).toFinset
  let pickB := (select_slotB (slotB_pools reddit_all) (used_today ∪ planned_today) rA.2).1
  rA.1 ++ (match pickB with | some x => [x] | none => [])

/-- `selected = selected_reddit[:2] + selected_news[:3]` (line 479). -/
def assemble_selected (selected_reddit : List RedditC)
    (selected_news : List NewsC) : List DigestItem :=
  (selected_reddit.take FIXED_REDDIT_COUNT).map DigestItem.reddit ++
    (selected_news.take OTHER_NEWS_COUNT).map DigestItem.news

/-- The selection pipeline of `main` in src/main.py, as a pure function of the
    fetched items, the store snapshot, the current time and the UTC+8 day
    key.  When the digest is empty the sentinel message is sent and the store
    is left untouched; otherwise every digest item is written to the store. -/
def run_main (news_items : List NItem) (reddit_items : List RItem)
    (store : Store) (now : Int) (dayKey : String) : RunResult :=
  let selected := assemble_selected
    (select_reddit_full store now dayKey reddit_items)
    (select_news_full store now news_items)
  if selected = [] then ⟨[], true, store⟩
  else ⟨selected, false, write_digest dayKey now store selected⟩

/-! Concrete example inputs used by the counterexample and witness theorems. -/

/-- A news item whose title hits the Luxembourg-immigration priority topic. -/
def exNews1 : NItem := ⟨"S", "luxembourg visa".data, "u", 1000000, []⟩

/-- A reddit item from a non-priority subreddit sharing `exNews1`'s URL. -/
def exReddit1 : RItem := ⟨"worldnews", "t".data, "u", 1000000, 0, 0, 0⟩

/-- The empty store. -/
def exStore0 : Store := ⟨[], [], []⟩

/-- Fresh, unseen candidate from group "a" (slot-B tier 0), popularity 5. -/
def exX : RedditC := ⟨"a", "tx".data, "x", 50, 0, 0, 5, "tx".data, false, true⟩

/-- Stale, seen candidate from group "b" (slot-B tier 3 only), popularity 1. -/
def exY : RedditC := ⟨"b", "ty".data, "y", 10, 0, 0, 1, "ty".data, true, false⟩

/-- Fresh, unseen candidate from group "b" whose URL "u" is already claimed. -/
def exYc : RedditC := ⟨"b", "ty".data, "u", 10, 0, 0, 9, "ty".data, false, true⟩

/-- Fresh, unseen candidate from group "a" with unclaimed URL "z". -/
def exZ : RedditC := ⟨"a", "tz".data, "z", 10, 0, 0, 1, "tz".data, false, true⟩

/-- News candidate constructor for the diversity-pass scenario. -/
def mkExNews (s : String) (t : Option String) (h : Nat) : NewsC :=
  ⟨s, s.data, s, 100, [], s.data, h, t, h, false, false, true⟩

def exA1 : NewsC := mkExNews "a1" (some "ta") 5
def exA2 : NewsC := mkExNews "a2" (some "ta") 4
def exA3 : NewsC := mkExNews "a3" (some "ta") 3
def exA4 : NewsC := mkExNews "a4" (some "ta") 2
def exU1 : NewsC := mkExNews "u1" (some "tu") 1

/-- The adjacency property of a whitespace-collapsed text: no two consecutive
    whitespace characters. -/
def Radj (a b : Char) : Prop := isWs a = false ∨ isWs b = false

/-! Lemmas about `norm_text`. -/

theorem toNat_ofNat_valid {n : Nat} (h : n.isValidChar) :
    (Char.ofNat n).toNat = n := by
  simp [Char.ofNat, dif_pos h, Char.ofNatAux, Char.toNat, UInt32.toNat,
    BitVec.toNat_ofNatLt]

theorem toLower_toLower (c : Char) : (Char.toLower c).toLower = Char.toLower c := by
  unfold Char.toLower
  by_cases h : c.toNat ≥ 65 ∧ c.toNat ≤ 90
  · rw [if_pos h]
    have hv : Nat.isValidChar (c.toNat + 32) := Or.inl (by omega)
    have ht : (Char.ofNat (c.toNat + 32)).toNat = c.toNat + 32 := toNat_ofNat_valid hv
    rw [if_neg (by omega)]
  · rw [if_neg h, if_neg h]

theorem mem_collapseWs {c : Char} :
    ∀ (b : Bool) (l : List Char), c ∈ collapseWs b l →
      c = ' ' ∨ (c ∈ l ∧ isWs c = false) := by
  intro b l
  induction l generalizing b with
  | nil => intro h; simp [collapseWs] at h
  | cons d t ih =>
    intro h
    simp only [collapseWs] at h
    by_cases hw : isWs d = true
    · rw [if_pos hw] at h
      by_cases hb : b = true
      · rw [if_pos hb] at h
        rcases ih _ h with h1 | ⟨h2, h3⟩
        · exact Or.inl h1
        · exact Or.inr ⟨List.mem_cons_of_mem _ h2, h3⟩
      · rw [if_neg hb] at h
        rcases List.mem_cons.1 h with rfl | h'
        · exact Or.inl rfl
        · rcases ih _ h' with h1 | ⟨h2, h3⟩
          · exact Or.inl h1
          · exact Or.inr ⟨List.mem_cons_of_mem _ h2, h3⟩
    · rw [if_neg hw] at h
      rcases List.mem_cons.1 h with rfl | h'
      · exact Or.inr ⟨List.mem_cons_self _ _, by simpa using hw⟩
      · rcases ih _ h' with h1 | ⟨h2, h3⟩
        · exact Or.inl h1
        · exact Or.inr ⟨List.mem_cons_of_mem _ h2, h3⟩

theorem collapseWs_chain' :
    ∀ (b : Bool) (l : List Char),
      List.Chain' Radj (collapseWs b l) ∧
        (b = true → ∀ c, (collapseWs b l).head? = some c → isWs c = false) := by
  intro b l
  induction l generalizing b with
  | nil => exact ⟨List.chain'_nil, fun _ c hc => by cases hc⟩
  | cons d t ih =>
    by_cases hw : isWs d = true
    · by_cases hb : b = true
      · rw [show collapseWs b (d :: t) = collapseWs true t by
          simp [collapseWs, hw, hb]]
        exact ⟨(ih true).1, fun _ => (ih true).2 rfl⟩
      · rw [show collapseWs b (d :: t) = ' ' :: collapseWs true t by
          cases b with
          | true => exact absurd rfl hb
          | false => simp [collapseWs, hw]]
        refine ⟨List.chain'_cons'.2 ⟨fun y hy => ?_, (ih true).1⟩,
          fun habs => absurd habs hb⟩
        exact Or.inr ((ih true).2 rfl y hy)
    · rw [show collapseWs b (d :: t) = d :: collapseWs false t by
        simp [collapseWs, hw]]
      refine ⟨List.chain'_cons'.2 ⟨fun y _ => Or.inl (by simpa using hw), (ih false).1⟩,
        fun _ c hc => ?_⟩
      rw [List.head?_cons] at hc
      cases hc
      simpa using hw

theorem collapseWs_eq_self :
    ∀ (b : Bool) (l : List Char),
      (∀ c ∈ l, isWs c = true → c = ' ') → List.Chain' Radj l →
      (b = true → ∀ c, l.head? = some c → isWs c = false) →
      collapseWs b l = l := by
  intro b l
  induction l generalizing b with
  | nil => intro _ _ _; rfl
  | cons d t ih =>
    intro hP hC hH
    by_cases hw : isWs d = true
    · have hb : b = false := by
        cases b with
        | false => rfl
        | true => exact absurd hw (by simpa using hH rfl d rfl)
      subst hb
      have hd : d = ' ' := hP d (List.mem_cons_self _ _) hw
      rw [show collapseWs false (d :: t) = ' ' :: collapseWs true t by
        simp [collapseWs, hw]]
      rw [← hd]
      congr 1
      refine ih true (fun c hc hcw => hP c (List.mem_cons_of_mem _ hc) hcw)
        (List.chain'_cons'.1 hC).2 (fun _ c hc => ?_)
      rcases (List.chain'_cons'.1 hC).1 c hc with h1 | h2
      · rw [hw] at h1; cases h1
      · exact h2
    · rw [show collapseWs b (d :: t) = d :: collapseWs false t by
        simp [collapseWs, hw]]
      congr 1
      exact ih false (fun c hc hcw => hP c (List.mem_cons_of_mem _ hc) hcw)
        (List.chain'_cons'.1 hC).2 (fun habs => by cases habs)

theorem head?_dropWhileWs {l : List Char} {c : Char}
    (h : (l.dropWhile isWs).head? = some c) : isWs c = false := by
  have := List.head?_dropWhile_not isWs l
  rw [h] at this
  exact this

theorem dropTrailWs_isPrefix (l : List Char) : dropTrailWs l <+: l := by
  have h := List.dropWhile_suffix (l := l.reverse) isWs
  rw [← List.reverse_reverse (l.reverse.dropWhile isWs)] at h
  exact List.reverse_suffix.1 h

theorem head?_of_isPrefix {l m : List Char} {c : Char} (h : m <+: l)
    (hm : m.head? = some c) : l.head? = some c := by
  obtain ⟨t, rfl⟩ := h
  cases m with
  | nil => cases hm
  | cons d t' => cases hm; rfl

theorem stripWs_head {l : List Char} {c : Char}
    (h : (stripWs l).head? = some c) : isWs c = false := by
  unfold stripWs at h
  exact head?_dropWhileWs (head?_of_isPrefix (dropTrailWs_isPrefix _) h)

theorem stripWs_reverse_head {l : List Char} {c : Char}
    (h : (stripWs l).reverse.head? = some c) : isWs c = false := by
  unfold stripWs dropTrailWs at h
  rw [List.reverse_reverse] at h
  exact head?_dropWhileWs h

theorem dropWhileWs_eq_self {l : List Char}
    (h : ∀ c, l.head? = some c → isWs c = false) : l.dropWhile isWs = l := by
  cases l with
  | nil => rfl
  | cons d t => rw [List.dropWhile_cons, if_neg (by simp [h d rfl])]

theorem stripWs_eq_self {l : List Char}
    (hh : ∀ c, l.head? = some c → isWs c = false)
    (ht : ∀ c, l.reverse.head? = some c → isWs c = false) : stripWs l = l := by
  unfold stripWs dropTrailWs
  rw [dropWhileWs_eq_self hh, dropWhileWs_eq_self ht, List.reverse_reverse]

theorem chain'_of_suffix {R : Char → Char → Prop} {l m : List Char}
    (h : m <:+ l) (hc : List.Chain' R l) : List.Chain' R m := by
  obtain ⟨t, rfl⟩ := h
  exact (List.chain'_append.1 hc).2.1

theorem chain'_radj_reverse {l : List Char} (h : List.Chain' Radj l) :
    List.Chain' Radj l.reverse := by
  rw [List.chain'_reverse]
  exact h.imp (fun {a b} hab => hab.symm)

theorem stripWs_chain' {l : List Char} (h : List.Chain' Radj l) :
    List.Chain' Radj (stripWs l) := by
  unfold stripWs dropTrailWs
  exact chain'_radj_reverse (chain'_of_suffix (List.dropWhile_suffix isWs)
    (chain'_radj_reverse (chain'_of_suffix (List.dropWhile_suffix isWs) h)))

theorem mem_stripWs {l : List Char} {c : Char} (h : c ∈ stripWs l) : c ∈ l := by
  unfold stripWs dropTrailWs at h
  rw [List.mem_reverse] at h
  have h' := (List.dropWhile_sublist (l := (l.dropWhile isWs).reverse) isWs).subset h
  rw [List.mem_reverse] at h'
  exact (List.dropWhile_sublist isWs).subset h'

theorem mem_norm_text_fixed {s : List Char} {c : Char} (h : c ∈ norm_text s) :
    Char.toLower c = c := by
  unfold norm_text at h
  rcases mem_collapseWs _ _ (mem_stripWs h) with rfl | ⟨h3, _⟩
  · decide
  · rcases List.mem_map.1 h3 with ⟨a, _, rfl⟩
    exact toLower_toLower a

theorem norm_text_ws_chars {s : List Char} {c : Char} (h : c ∈ norm_text s)
    (hw : isWs c = true) : c = ' ' := by
  unfold norm_text at h
  rcases mem_collapseWs _ _ (mem_stripWs h) with rfl | ⟨_, h4⟩
  · rfl
  · rw [hw] at h4; cases h4

theorem norm_text_chain' (s : List Char) : List.Chain' Radj (norm_text s) :=
  stripWs_chain' (collapseWs_chain' false _).1

theorem norm_text_norm_text (s : List Char) :
    norm_text (norm_text s) = norm_text s := by
  have hmap : (norm_text s).map Char.toLower = norm_text s :=
    ((List.map_congr_left (fun c hc => mem_norm_text_fixed hc)).trans
      (List.map_id _))
  show stripWs (collapseWs false (List.map Char.toLower (norm_text s))) = norm_text s
  rw [hmap]
  rw [collapseWs_eq_self false _ (fun c hc hw => norm_text_ws_chars hc hw)
    (norm_text_chain' s) (fun habs => by cases habs)]
  show stripWs (stripWs (collapseWs false (List.map Char.toLower s))) = norm_text s
  rw [stripWs_eq_self (fun c hc => stripWs_head hc) (fun c hc => stripWs_reverse_head hc)]
  rfl

/-- C9: the normaliser `norm_text` is idempotent — for every string `x`,
    `normalize(normalize(x)) = normalize(x)` — and is case- and
    whitespace-insensitive: `normalize("Foo   Bar\n") = normalize("foo bar")`. -/
theorem norm_text_idempotent_and_insensitive :
    (∀ s : List Char, norm_text (norm_text s) = norm_text s) ∧
      norm_text "Foo   Bar\n".data = norm_text "foo bar".data :=
  ⟨norm_text_norm_text, by decide⟩

/-- C1: for normalized titles and short alphabetic keywords without spaces,
    `kw_in_text` is claimed to match exactly at word boundaries, so that "eu"
    matches in "eu summit" but not inside "museum".  The code's pattern
    `rf"\\b...\\b"` searches for a literal backslash-b instead of a word
    boundary, so "eu" fails to match "eu summit" even though the keyword
    satisfies every premise of the claim and the word-boundary predicate
    holds there. -/
theorem kw_short_keyword_literal_backslash_bug :
    pyIsAlpha "eu".data = true ∧ "eu".data.length ≤ 3 ∧ ' ' ∉ "eu".data ∧
      norm_text "eu summit".data = "eu summit".data ∧
      wbMatch "eu".data "eu summit".data = true ∧
      kw_in_text "eu summit".data "eu".data = false ∧
      wbMatch "eu".data "museum".data = false ∧
      kw_in_text "museum".data "eu".data = false := by decide

/-! Lemmas about the topic classifier loops. -/

theorem kwLoop_eq (text : List Char) (kws : List (List Char)) :
    ∀ acc, kwLoop text kws acc =
      acc + (kws.filter (fun kw => kw_in_text text kw)).length := by
  induction kws with
  | nil => intro acc; rfl
  | cons kw rest ih =>
    intro acc
    simp only [kwLoop, List.filter_cons]
    by_cases h : kw_in_text text kw = true
    · rw [if_pos h, if_pos h, ih]
      simp only [List.length_cons]
      omega
    · rw [if_neg h, if_neg h, ih]

theorem hitsAux_eq (text : List Char) (l : List (String × List (List Char))) :
    ∀ acc, hitsAux text l acc =
      acc + (l.map (fun p =>
        (p.2.filter (fun kw => kw_in_text text kw)).length)).sum := by
  induction l with
  | nil => intro acc; rfl
  | cons p rest ih =>
    intro acc
    cases p with
    | mk topic kws =>
      simp only [hitsAux, List.map_cons, List.sum_cons]
      rw [ih, kwLoop_eq]
      omega

/-- C2 counterexample: in the title "russia russia" the keyword "russia"
    occurs twice, so the claimed occurrence count is 2, but `topic_hits_in_title`
    counts each (topic, keyword) pair at most once and returns 1. -/
theorem topic_hits_not_occurrence_count_cex :
    topic_hits_in_title "russia russia".data = 1 ∧
      spec_topic_occurrences "russia russia".data = 2 := by decide

/-- C2 (amended): `topicHits` equals the number of (topic, keyword) pairs
    whose keyword matches the normalized title — each matching keyword
    counts once per topic containing it (duplicates across topics counted
    separately), regardless of how many times it occurs in the title. -/
theorem topic_hits_eq_matching_keyword_pairs (title : List Char) :
    topic_hits_in_title title =
      (TOPIC_KEYWORDS.map (fun p =>
        (p.2.filter (fun kw => kw_in_text (norm_text title) kw)).length)).sum := by
  unfold topic_hits_in_title
  rw [hitsAux_eq]
  exact Nat.zero_add _

theorem labelAux_some_ne_none (text : List Char) :
    ∀ (l : List (String × List (List Char))) (t : String) (bh : Nat),
      (labelAux text l (some t) bh).1 ≠ none := by
  intro l
  induction l with
  | nil => intro t bh h; cases h
  | cons p rest ih =>
    intro t bh
    cases p with
    | mk topic kws =>
      simp only [labelAux]
      by_cases h : bh < kwLoop text kws 0
      · rw [if_pos h]; exact ih topic _
      · rw [if_neg h]; exact ih t bh

theorem labelAux_none_iff (text : List Char) :
    ∀ l : List (String × List (List Char)),
      ((labelAux text l none 0).1 = none ↔ ∀ p ∈ l, kwLoop text p.2 0 = 0) := by
  intro l
  induction l with
  | nil => simp [labelAux]
  | cons p rest ih =>
    cases p with
    | mk topic kws =>
      simp only [labelAux]
      by_cases h : 0 < kwLoop text kws 0
      · rw [if_pos h]
        constructor
        · intro habs; exact absurd habs (labelAux_some_ne_none text rest topic _)
        · intro hall
          exfalso
          have h2 := hall (topic, kws) (List.mem_cons_self _ _)
          simp only [] at h2
          omega
      · rw [if_neg h]
        have h0 : kwLoop text kws 0 = 0 := by omega
        rw [ih]
        constructor
        · intro hall p hp
          rcases List.mem_cons.1 hp with rfl | hp'
          · exact h0
          · exact hall p hp'
        · intro hall p hp
          exact hall p (List.mem_cons_of_mem _ hp)

theorem topic_label_none_iff (title : List Char) :
    (topic_label title).1 = none ↔ topic_hits_in_title title = 0 := by
  unfold topic_label topic_hits_in_title
  rw [labelAux_none_iff, hitsAux_eq]
  simp only [Nat.zero_add, List.sum_eq_zero_iff, List.mem_map]
  constructor
  · rintro h x ⟨p, hp, rfl⟩
    have := h p hp
    rw [kwLoop_eq] at this
    omega
  · intro h p hp
    rw [kwLoop_eq]
    have := h _ ⟨p, hp, rfl⟩
    omega

theorem build_news_pools_topic :
    ∀ (store : Store) (cutoff : Int) (items : List NItem) (x : NewsC),
      (x ∈ (build_news_pools store cutoff items).1 ∨
        x ∈ (build_news_pools store cutoff items).2) →
      0 < x.topic_hits ∧ x.topic ≠ none := by
  intro store cutoff items
  induction items with
  | nil => intro x h; rcases h with h | h <;> simp [build_news_pools] at h
  | cons it rest ih =>
    intro x h
    have hstep : build_news_pools store cutoff (it :: rest) =
        (if (enrichNewsItem store cutoff it).topic_hits ≤ 0 then
          build_news_pools store cutoff rest
        else
          ((enrichNewsItem store cutoff it) :: (build_news_pools store cutoff rest).1,
            if (enrichNewsItem store cutoff it).in_window &&
                !(enrichNewsItem store cutoff it).is_seen then
              (enrichNewsItem store cutoff it) :: (build_news_pools store cutoff rest).2
            else (build_news_pools store cutoff rest).2)) := rfl
    rw [hstep] at h
    by_cases h0 : (enrichNewsItem store cutoff it).topic_hits ≤ 0
    · rw [if_pos h0] at h
      exact ih x h
    · rw [if_neg h0] at h
      have hx : x = enrichNewsItem store cutoff it →
          0 < x.topic_hits ∧ x.topic ≠ none := by
        rintro rfl
        refine ⟨by omega, ?_⟩
        have hpos : 0 < topic_hits_in_title it.title := by
          simpa [enrichNewsItem] using Nat.lt_of_not_le h0
        show (topic_label it.title).1 ≠ none
        intro hnone
        rw [topic_label_none_iff] at hnone
        omega
      rcases h with h | h
      · rcases List.mem_cons.1 h with rfl | h'
        · exact hx rfl
        · exact ih x (Or.inl h')
      · by_cases hw : ((enrichNewsItem store cutoff it).in_window &&
            !(enrichNewsItem store cutoff it).is_seen) = true
        · rw [if_pos hw] at h
          rcases List.mem_cons.1 h with rfl | h'
          · exact hx rfl
          · exact ih x (Or.inr h')
        · rw [if_neg hw] at h
          exact ih x (Or.inr h)

/-- C10: `topic_label` returns a topic exactly when `topic_hits_in_title` is
    positive (both use the same keyword predicate), and every news candidate
    that enters the selector pools (`news_all_kw`, and hence the primary
    pool) has positive `topic_hits` and a non-`none` `primaryTopic`, because
    zero-hit items are dropped before pooling. -/
theorem topic_label_iff_topic_hits_pos :
    (∀ title : List Char,
      (topic_label title).1 ≠ none ↔ 0 < topic_hits_in_title title) ∧
      (∀ (store : Store) (cutoff : Int) (items : List NItem) (x : NewsC),
        x ∈ (build_news_pools store cutoff items).1 ∨
          x ∈ (build_news_pools store cutoff items).2 →
        0 < x.topic_hits ∧ x.topic ≠ none) := by
  constructor
  · intro title
    rw [ne_eq, topic_label_none_iff]
    omega
  · exact build_news_pools_topic

/-- Witness for C10 at a concrete title and a concrete one-item run. -/
theorem topic_label_iff_topic_hits_pos_witness :
    ((topic_label "luxembourg visa".data).1 ≠ none ↔
      0 < topic_hits_in_title "luxembourg visa".data) ∧
      (0 < (enrichNewsItem exStore0 0 exNews1).topic_hits ∧
        (enrichNewsItem exStore0 0 exNews1).topic ≠ none) :=
  ⟨topic_label_iff_topic_hits_pos.1 _,
    topic_label_iff_topic_hits_pos.2 exStore0 0 [exNews1] _ (Or.inl (by decide))⟩

/-! Lemmas about the History Store. -/

theorem insertIgnore_any_self {κ : Type} [BEq κ] [LawfulBEq κ]
    (tbl : List (κ × Int)) (k : κ) (ts : Int) :
    (insertIgnore tbl k ts).any (fun r => r.1 == k) = true := by
  unfold insertIgnore
  by_cases h : tbl.any (fun r => r.1 == k) = true
  · rw [if_pos h]; exact h
  · rw [if_neg h, List.any_append]
    simp

theorem insertIgnore_any_iff {κ : Type} [BEq κ] [LawfulBEq κ]
    (tbl : List (κ × Int)) (k k' : κ) (ts : Int) :
    ((insertIgnore tbl k ts).any (fun r => r.1 == k') = true ↔
      tbl.any (fun r => r.1 == k') = true ∨ k' = k) := by
  unfold insertIgnore
  by_cases h : tbl.any (fun r => r.1 == k) = true
  · rw [if_pos h]
    constructor
    · exact Or.inl
    · rintro (h' | rfl)
      · exact h'
      · exact h
  · rw [if_neg h, List.any_append]
    have hk : ([(k, ts)].any (fun r => r.1 == k')) = (k == k') := by
      simp [List.any_cons]
    rw [hk, Bool.or_eq_true]
    constructor
    · rintro (h1 | h2)
      · exact Or.inl h1
      · exact Or.inr (eq_of_beq h2).symm
    · rintro (h1 | rfl)
      · exact Or.inl h1
      · exact Or.inr (beq_self_eq_true _)

theorem insertIgnore_insertIgnore {κ : Type} [BEq κ] [LawfulBEq κ]
    (tbl : List (κ × Int)) (k : κ) (ts ts' : Int) :
    insertIgnore (insertIgnore tbl k ts) k ts' = insertIgnore tbl k ts := by
  rw [show insertIgnore (insertIgnore tbl k ts) k ts' =
    (if (insertIgnore tbl k ts).any (fun r => r.1 == k) then insertIgnore tbl k ts
      else insertIgnore tbl k ts ++ [(k, ts')]) from rfl]
  rw [if_pos (insertIgnore_any_self tbl k ts)]

/-- C6: after `markSeen(url, title)` the store reports `isSeen` for that pair
    and for any pair sharing either the URL or the normalised title, and a
    second `markSeen` of the same pair (at any timestamp) leaves the store
    unchanged. -/
theorem mark_seen_already_seen_spec (store : Store) (url : String)
    (tn : List Char) (ts : Int) :
    already_seen (mark_seen store url tn ts) url tn = true ∧
      (∀ (url' : String) (tn' : List Char), url' = url ∨ tn' = tn →
        already_seen (mark_seen store url tn ts) url' tn' = true) ∧
      (∀ ts', mark_seen (mark_seen store url tn ts) url tn ts' =
        mark_seen store url tn ts) := by
  have hu : (insertIgnore store.seen url ts).any (fun r => r.1 == url) = true :=
    insertIgnore_any_self _ _ _
  have htn : (insertIgnore store.seen_title tn ts).any (fun r => r.1 == tn) = true :=
    insertIgnore_any_self _ _ _
  refine ⟨?_, ?_, ?_⟩
  · show ((insertIgnore store.seen url ts).any (fun r => r.1 == url) ||
      (insertIgnore store.seen_title tn ts).any (fun r => r.1 == tn)) = true
    rw [hu, Bool.true_or]
  · rintro url' tn' (rfl | rfl)
    · show ((insertIgnore store.seen url' ts).any (fun r => r.1 == url') ||
        (insertIgnore store.seen_title tn ts).any (fun r => r.1 == tn')) = true
      rw [hu, Bool.true_or]
    · show ((insertIgnore store.seen url ts).any (fun r => r.1 == url') ||
        (insertIgnore store.seen_title tn' ts).any (fun r => r.1 == tn')) = true
      rw [htn, Bool.or_true]
  · intro ts'
    show Store.mk (insertIgnore (insertIgnore store.seen url ts) url ts')
        (insertIgnore (insertIgnore store.seen_title tn ts) tn ts')
        store.subreddit_daily =
      Store.mk (insertIgnore store.seen url ts) (insertIgnore store.seen_title tn ts)
        store.subreddit_daily
    rw [insertIgnore_insertIgnore, insertIgnore_insertIgnore]

/-- Witness for C6: a title-only collision is seen, and the double insert is
    a no-op even at a different timestamp. -/
theorem mark_seen_already_seen_spec_witness :
    already_seen (mark_seen exStore0 "u" "t".data 5) "u" "x".data = true ∧
      mark_seen (mark_seen exStore0 "u" "t".data 5) "u" "t".data 7 =
        mark_seen exStore0 "u" "t".data 5 :=
  ⟨(mark_seen_already_seen_spec exStore0 "u" "t".data 5).2.1 "u" "x".data
      (Or.inl rfl),
    (mark_seen_already_seen_spec exStore0 "u" "t".data 5).2.2 7⟩

/-! Lemmas about `pick_news_diverse`. -/

theorem updTc_topic_some {tc : String → Nat} {it : NewsC} {t' : String}
    (h : it.topic = some t') :
    updTc tc it = if t' ≠ "" then (fun s => if s = t' then tc s + 1 else tc s)
      else tc := by
  unfold updTc
  rw [h]

theorem updTc_topic_none {tc : String → Nat} {it : NewsC}
    (h : it.topic = none) : updTc tc it = tc := by
  unfold updTc
  rw [h]

theorem updTc_le (tc : String → Nat) (it : NewsC) (t : String) :
    tc t ≤ updTc tc it t := by
  cases htop : it.topic with
  | none => rw [updTc_topic_none htop]
  | some t' =>
    rw [updTc_topic_some htop]
    by_cases h : t' ≠ ""
    · rw [if_pos h]
      by_cases ht : t = t'
      · subst ht; simp
      · simp [ht]
    · rw [if_neg h]

theorem foldl_updTc_le (sel : List NewsC) :
    ∀ (tc : String → Nat) (t : String), tc t ≤ (sel.foldl updTc tc) t := by
  induction sel with
  | nil => intro tc t; exact le_refl _
  | cons it rest ih =>
    intro tc t
    exact le_trans (updTc_le tc it t) (ih (updTc tc it) t)

theorem foldl_updTc_pos (sel : List NewsC) :
    ∀ (tc : String → Nat) (y : NewsC) (t : String),
      y ∈ sel → y.topic = some t → t ≠ "" → 0 < (sel.foldl updTc tc) t := by
  induction sel with
  | nil => intro tc y t hy; cases hy
  | cons it rest ih =>
    intro tc y t hy ht hne
    rcases List.mem_cons.1 hy with rfl | hy'
    · have hpos : 0 < updTc tc y t := by
        rw [updTc_topic_some ht, if_pos hne]
        simp
      exact lt_of_lt_of_le hpos (foldl_updTc_le rest (updTc tc y) t)
    · exact ih (updTc tc it) y t hy' ht hne

theorem diversePass1_ext (limit : Nat) :
    ∀ (cands sel : List NewsC) (urls : Finset String) (tc : String → Nat),
      (∀ t : String, t ≠ "" → tc t = 0 → ∀ y ∈ sel, y.topic ≠ some t) →
      ∃ ext : List NewsC,
        (diversePass1 limit cands sel urls tc).1 = sel ++ ext ∧
          (∀ x ∈ ext, ∃ t, x.topic = some t ∧ t ≠ "" ∧
            ∀ y ∈ sel, y.topic ≠ some t) ∧
          (ext.filterMap NewsC.topic).Nodup := by
  intro cands
  induction cands with
  | nil =>
    intro sel urls tc _
    exact ⟨[], by simp [diversePass1], fun x hx => absurd hx (List.not_mem_nil x),
      List.nodup_nil⟩
  | cons it rest ih =>
    intro sel urls tc hinv
    by_cases hstop : limit ≤ sel.length
    · refine ⟨[], ?_, fun x hx => absurd hx (List.not_mem_nil x), List.nodup_nil⟩
      simp [diversePass1, hstop]
    · by_cases hurl : it.url ∈ urls
      · have heq : diversePass1 limit (it :: rest) sel urls tc =
            diversePass1 limit rest sel urls tc := by
          simp [diversePass1, hstop, hurl]
        rw [heq]
        exact ih sel urls tc hinv
      · cases htop : it.topic with
        | none =>
          have heq : diversePass1 limit (it :: rest) sel urls tc =
              diversePass1 limit rest sel urls tc := by
            simp [diversePass1, hstop, hurl, htop]
          rw [heq]
          exact ih sel urls tc hinv
        | some t =>
          by_cases hcond : t ≠ "" ∧ tc t = 0
          · have heq : diversePass1 limit (it :: rest) sel urls tc =
                diversePass1 limit rest (sel ++ [it]) (insert it.url urls)
                  (fun s => if s = t then 1 else tc s) := by
              simp [diversePass1, hstop, hurl, htop, hcond]
            have hinv' : ∀ t' : String, t' ≠ "" →
                (if t' = t then 1 else tc t') = 0 →
                ∀ y ∈ sel ++ [it], y.topic ≠ some t' := by
              intro t' hne' h0 y hy
              by_cases ht' : t' = t
              · rw [if_pos ht'] at h0; cases h0
              · rw [if_neg ht'] at h0
                rcases List.mem_append.1 hy with hy' | hy'
                · exact hinv t' hne' h0 y hy'
                · have hyit : y = it := by simpa using hy'
                  subst hyit
                  rw [htop]
                  intro hsome
                  injection hsome with hts
                  exact ht' hts.symm
            obtain ⟨ext', heq', hprop, hnodup⟩ :=
              ih (sel ++ [it]) (insert it.url urls) _ hinv'
            refine ⟨it :: ext', ?_, ?_, ?_⟩
            · rw [heq, heq', List.append_assoc, List.singleton_append]
            · intro x hx
              rcases List.mem_cons.1 hx with rfl | hx'
              · exact ⟨t, htop, hcond.1, hinv t hcond.1 hcond.2⟩
              · obtain ⟨t', ht', hne', hfresh⟩ := hprop x hx'
                exact ⟨t', ht', hne',
                  fun y hy => hfresh y (List.mem_append_left _ hy)⟩
            · rw [show (it :: ext').filterMap NewsC.topic =
                  t :: ext'.filterMap NewsC.topic from by
                simp [List.filterMap_cons, htop]]
              refine List.nodup_cons.2 ⟨?_, hnodup⟩
              intro hmem
              obtain ⟨x, hx, hxt⟩ := List.mem_filterMap.1 hmem
              obtain ⟨t2, ht2, _, hfresh⟩ := hprop x hx
              rw [ht2] at hxt
              injection hxt with h''
              subst h''
              exact hfresh it (List.mem_append_right _ (List.mem_cons_self _ _)) htop
          · have heq : diversePass1 limit (it :: rest) sel urls tc =
                diversePass1 limit rest sel urls tc := by
              simp [diversePass1, hstop, hurl, htop, hcond]
            rw [heq]
            exact ih sel urls tc hinv

theorem diversePass2_urls_mono (limit : Nat) :
    ∀ (cands sel : List NewsC) (urls : Finset String) (tc : String → Nat),
      urls ⊆ (diversePass2 limit cands sel urls tc).2.1 := by
  intro cands
  induction cands with
  | nil => intro sel urls tc; exact Finset.Subset.refl _
  | cons it rest ih =>
    intro sel urls tc
    by_cases hstop : limit ≤ sel.length
    · rw [show diversePass2 limit (it :: rest) sel urls tc = (sel, urls, tc) from by
        simp [diversePass2, hstop]]
    · by_cases hurl : it.url ∈ urls
      · rw [show diversePass2 limit (it :: rest) sel urls tc =
            diversePass2 limit rest sel urls tc from by
          simp [diversePass2, hstop, hurl]]
        exact ih sel urls tc
      · rw [show diversePass2 limit (it :: rest) sel urls tc =
            diversePass2 limit rest (sel ++ [it]) (insert it.url urls)
              (match it.topic with
                | some t => if t ≠ "" then (fun s => if s = t then tc s + 1 else tc s)
                  else tc
                | none => tc) from by
          simp [diversePass2, hstop, hurl]]
        exact (Finset.subset_insert _ _).trans (ih _ _ _)

theorem diversePass2_exhaust (limit : Nat) :
    ∀ (cands sel : List NewsC) (urls : Finset String) (tc : String → Nat),
      (diversePass2 limit cands sel urls tc).1.length < limit →
      ∀ c ∈ cands, c.url ∈ (diversePass2 limit cands sel urls tc).2.1 := by
  intro cands
  induction cands with
  | nil => intro sel urls tc _ c hc; cases hc
  | cons it rest ih =>
    intro sel urls tc hlen c hc
    by_cases hstop : limit ≤ sel.length
    · rw [show diversePass2 limit (it :: rest) sel urls tc = (sel, urls, tc) from by
        simp [diversePass2, hstop]] at hlen
      simp only [] at hlen
      omega
    · by_cases hurl : it.url ∈ urls
      · have heq : diversePass2 limit (it :: rest) sel urls tc =
            diversePass2 limit rest sel urls tc := by
          simp [diversePass2, hstop, hurl]
        rw [heq] at hlen ⊢
        rcases List.mem_cons.1 hc with rfl | hc'
        · exact diversePass2_urls_mono limit rest sel urls tc hurl
        · exact ih sel urls tc hlen c hc'
      · have heq : diversePass2 limit (it :: rest) sel urls tc =
            diversePass2 limit rest (sel ++ [it]) (insert it.url urls)
              (match it.topic with
                | some t => if t ≠ "" then (fun s => if s = t then tc s + 1 else tc s)
                  else tc
                | none => tc) := by
          simp [diversePass2, hstop, hurl]
        rw [heq] at hlen ⊢
        rcases List.mem_cons.1 hc with rfl | hc'
        · exact diversePass2_urls_mono limit rest _ _ _
            (Finset.mem_insert_self _ _)
        · exact ih _ _ _ hlen c hc'

/-- C8: the diversity pass walks the ranked list once, appending only items
    whose truthy topic is fresh relative to everything selected so far (the
    appended topics are pairwise distinct and disjoint from the topics of the
    initial selection); if the final selection is still short of the limit,
    the second unconstrained pass has exhausted the candidate list (every
    candidate URL is claimed); and in the concrete 3-slot scenario with four
    candidates of one topic and one of a unique topic, the unique-topic item
    is selected before a second same-topic item. -/
theorem pick_news_diverse_two_pass_spec :
    (∀ (limit : Nat) (cands sel : List NewsC) (urls : Finset String),
      ∃ ext : List NewsC,
        (diversePass1 limit cands sel urls (init_tc sel)).1 = sel ++ ext ∧
          (∀ x ∈ ext, ∃ t, x.topic = some t ∧ t ≠ "" ∧
            ∀ y ∈ sel, y.topic ≠ some t) ∧
          (ext.filterMap NewsC.topic).Nodup) ∧
      (∀ (limit : Nat) (cands sel : List NewsC) (urls : Finset String),
        (pick_news_diverse cands sel urls limit).1.length < limit →
          ∀ c ∈ cands, c.url ∈ (pick_news_diverse cands sel urls limit).2) ∧
      (pick_news_diverse [exA1, exA2, exA3, exA4, exU1] [] ∅ 3).1 =
        [exA1, exU1, exA2] := by
  refine ⟨?_, ?_, by decide⟩
  · intro limit cands sel urls
    refine diversePass1_ext limit cands sel urls (init_tc sel) ?_
    intro t ht h0 y hy hsome
    have := foldl_updTc_pos sel (fun _ => 0) y t hy hsome ht
    unfold init_tc at h0
    omega
  · intro limit cands sel urls hlen c hc
    exact diversePass2_exhaust limit cands _ _ _ hlen c hc

/-- Witness for C8: a one-candidate run that falls short of the limit has
    consumed the candidate's URL. -/
theorem pick_news_diverse_two_pass_spec_witness :
    exA1.url ∈ (pick_news_diverse [exA1] [] ∅ 3).2 :=
  pick_news_diverse_two_pass_spec.2.1 3 [exA1] [] ∅ (by decide) exA1
    (List.mem_cons_self _ _)

/-! Lemmas about `pick_first`, the pool cascade and the fairness scan. -/

theorem pick_first_none {α : Type} (url : α → String) :
    ∀ (l : List α) (used : Finset String),
      (pick_first url l used).1 = none →
      (pick_first url l used).2 = used ∧ ∀ c ∈ l, url c ∈ used := by
  intro l
  induction l with
  | nil =>
    intro used _
    exact ⟨rfl, fun c hc => absurd hc (List.not_mem_nil c)⟩
  | cons it rest ih =>
    intro used h
    by_cases hu : url it ∈ used
    · rw [show pick_first url (it :: rest) used = pick_first url rest used from by
        simp [pick_first, hu]] at h ⊢
      obtain ⟨h1, h2⟩ := ih used h
      refine ⟨h1, fun c hc => ?_⟩
      rcases List.mem_cons.1 hc with rfl | hc'
      · exact hu
      · exact h2 c hc'
    · rw [show pick_first url (it :: rest) used =
          (some it, insert (url it) used) from by simp [pick_first, hu]] at h
      simp at h

theorem pick_first_some {α : Type} (url : α → String) :
    ∀ (l : List α) (used : Finset String) (x : α),
      (pick_first url l used).1 = some x →
      url x ∉ used ∧ (pick_first url l used).2 = insert (url x) used ∧
        ∃ l₁ l₂, l = l₁ ++ x :: l₂ ∧ ∀ c ∈ l₁, url c ∈ used := by
  intro l
  induction l with
  | nil => intro used x h; cases h
  | cons it rest ih =>
    intro used x h
    by_cases hu : url it ∈ used
    · rw [show pick_first url (it :: rest) used = pick_first url rest used from by
        simp [pick_first, hu]] at h ⊢
      obtain ⟨h1, h2, l₁, l₂, rfl, hall⟩ := ih used x h
      refine ⟨h1, h2, it :: l₁, l₂, rfl, fun c hc => ?_⟩
      rcases List.mem_cons.1 hc with rfl | hc'
      · exact hu
      · exact hall c hc'
    · rw [show pick_first url (it :: rest) used =
          (some it, insert (url it) used) from by simp [pick_first, hu]] at h ⊢
      simp only [] at h
      injection h with h'
      subst h'
      exact ⟨hu, rfl, [], rest, rfl, fun c hc => absurd hc (List.not_mem_nil c)⟩

theorem poolsPickFirst_none :
    ∀ (pools : List (List RedditC)) (claimed : Finset String),
      (poolsPickFirst pools claimed).1 = none →
      (poolsPickFirst pools claimed).2 = claimed ∧
        ∀ pool ∈ pools, ∀ c ∈ pool, c.url ∈ claimed := by
  intro pools
  induction pools with
  | nil =>
    intro claimed _
    exact ⟨rfl, fun pool hp => absurd hp (List.not_mem_nil pool)⟩
  | cons pool rest ih =>
    intro claimed h
    rcases hp : (pick_first (fun x : RedditC => x.url) pool claimed).1 with _ | p
    · obtain ⟨hset, hall⟩ := pick_first_none _ pool claimed hp
      have hred : poolsPickFirst (pool :: rest) claimed =
          poolsPickFirst rest (pick_first (fun x : RedditC => x.url) pool claimed).2 := by
        rw [show poolsPickFirst (pool :: rest) claimed =
          (match pick_first (fun x : RedditC => x.url) pool claimed with
            | (some p, u) => (some p, u)
            | (none, u) => poolsPickFirst rest u) from rfl]
        rcases hpair : pick_first (fun x : RedditC => x.url) pool claimed with ⟨o, u⟩
        rw [hpair] at hp
        simp only [] at hp
        subst hp
        rfl
      rw [hred, hset] at h ⊢
      obtain ⟨h1, h2⟩ := ih claimed h
      refine ⟨h1, fun q hq => ?_⟩
      rcases List.mem_cons.1 hq with rfl | hq'
      · exact hall
      · exact h2 q hq'
    · exfalso
      have hred : (poolsPickFirst (pool :: rest) claimed).1 = some p := by
        rw [show poolsPickFirst (pool :: rest) claimed =
          (match pick_first (fun x : RedditC => x.url) pool claimed with
            | (some p, u) => (some p, u)
            | (none, u) => poolsPickFirst rest u) from rfl]
        rcases hpair : pick_first (fun x : RedditC => x.url) pool claimed with ⟨o, u⟩
        rw [hpair] at hp
        simp only [] at hp
        subst hp
        rfl
      rw [hred] at h
      cases h

theorem poolsPickFirst_some :
    ∀ (pools : List (List RedditC)) (claimed : Finset String) (x : RedditC),
      (poolsPickFirst pools claimed).1 = some x →
      x.url ∉ claimed ∧
        ∃ j, (∃ l₁ l₂, pools.getD j [] = l₁ ++ x :: l₂ ∧ ∀ c ∈ l₁, c.url ∈ claimed) ∧
          ∀ k < j, ∀ c ∈ pools.getD k [], c.url ∈ claimed := by
  intro pools
  induction pools with
  | nil => intro claimed x h; cases h
  | cons pool rest ih =>
    intro claimed x h
    rcases hp : (pick_first (fun x : RedditC => x.url) pool claimed).1 with _ | p
    · obtain ⟨hset, hall⟩ := pick_first_none _ pool claimed hp
      have hred : poolsPickFirst (pool :: rest) claimed =
          poolsPickFirst rest (pick_first (fun x : RedditC => x.url) pool claimed).2 := by
        rw [show poolsPickFirst (pool :: rest) claimed =
          (match pick_first (fun x : RedditC => x.url) pool claimed with
            | (some p, u) => (some p, u)
            | (none, u) => poolsPickFirst rest u) from rfl]
        rcases hpair : pick_first (fun x : RedditC => x.url) pool claimed with ⟨o, u⟩
        rw [hpair] at hp
        simp only [] at hp
        subst hp
        rfl
      rw [hred, hset] at h
      obtain ⟨h1, j, hsplit, hearly⟩ := ih claimed x h
      refine ⟨h1, j + 1, hsplit, fun k hk c hc => ?_⟩
      cases k with
      | zero => exact hall c hc
      | succ k' => exact hearly k' (by omega) c hc
    · have hred : poolsPickFirst (pool :: rest) claimed =
          (some p, (pick_first (fun x : RedditC => x.url) pool claimed).2) := by
        rw [show poolsPickFirst (pool :: rest) claimed =
          (match pick_first (fun x : RedditC => x.url) pool claimed with
            | (some p, u) => (some p, u)
            | (none, u) => poolsPickFirst rest u) from rfl]
        rcases hpair : pick_first (fun x : RedditC => x.url) pool claimed with ⟨o, u⟩
        rw [hpair] at hp
        simp only [] at hp
        subst hp
        rfl
      rw [hred] at h
      simp only [] at h
      injection h with h'
      subst h'
      obtain ⟨h1, _, l₁, l₂, hsp, hall⟩ := pick_first_some _ pool claimed p hp
      exact ⟨h1, 0, ⟨l₁, l₂, hsp, hall⟩, fun k hk => absurd hk (Nat.not_lt_zero k)⟩

theorem find?_split {α : Type} (p : α → Bool) :
    ∀ (l : List α) (x : α), l.find? p = some x →
      p x = true ∧ ∃ l₁ l₂, l = l₁ ++ x :: l₂ ∧ ∀ c ∈ l₁, p c = false := by
  intro l
  induction l with
  | nil => intro x h; cases h
  | cons a rest ih =>
    intro x h
    rw [List.find?_cons] at h
    rcases hpa : p a with _ | _
    · rw [hpa] at h
      obtain ⟨h1, l₁, l₂, rfl, hall⟩ := ih x h
      refine ⟨h1, a :: l₁, l₂, rfl, fun c hc => ?_⟩
      rcases List.mem_cons.1 hc with rfl | hc'
      · exact hpa
      · exact hall c hc'
    · rw [hpa] at h
      simp only [] at h
      injection h with h'
      subst h'
      exact ⟨hpa, [], rest, rfl, fun c hc => absurd hc (List.not_mem_nil c)⟩

theorem findSome?_pools_some (f : List RedditC → Option RedditC)
    (hf : f [] = none) :
    ∀ (pools : List (List RedditC)) (x : RedditC),
      pools.findSome? f = some x →
      ∃ j, f (pools.getD j []) = some x ∧ ∀ k < j, f (pools.getD k []) = none := by
  intro pools
  induction pools with
  | nil => intro x h; cases h
  | cons pool rest ih =>
    intro x h
    rw [List.findSome?_cons] at h
    rcases hfp : f pool with _ | y
    · rw [hfp] at h
      obtain ⟨j, hj, hearly⟩ := ih x h
      refine ⟨j + 1, hj, fun k hk => ?_⟩
      cases k with
      | zero => exact hfp
      | succ k' => exact hearly k' (by omega)
    · rw [hfp] at h
      injection h with h'
      subst h'
      exact ⟨0, hfp, fun k hk => absurd hk (Nat.not_lt_zero k)⟩

theorem redditGe_refl (x : RedditC) : redditGe x x := Or.inr ⟨rfl, le_refl _⟩

theorem pairwise_split_ge {l₁ l₂ : List RedditC} {x : RedditC}
    (h : List.Pairwise redditGe (l₁ ++ x :: l₂)) : ∀ c ∈ l₂, redditGe x c :=
  (List.pairwise_cons.1 (List.pairwise_append.1 h).2.1).1

theorem slotB_pools_getD_sorted (reddit_all : List RedditC) (j : Nat) :
    List.Pairwise redditGe ((slotB_pools reddit_all).getD j []) := by
  match j with
  | 0 => exact List.sorted_insertionSort redditGe _
  | 1 => exact List.sorted_insertionSort redditGe _
  | 2 => exact List.sorted_insertionSort redditGe _
  | 3 => exact List.sorted_insertionSort redditGe _
  | n + 4 => exact List.Pairwise.nil

theorem getD_nil_of_len {pools : List (List RedditC)} {i : Nat}
    (h : ¬ i < pools.length) : pools.getD i [] = [] := by
  rw [List.getD_eq_getElem?_getD, List.getElem?_eq_none (by omega)]
  rfl

theorem getD_mem_of_lt {pools : List (List RedditC)} {i : Nat}
    (h : i < pools.length) : pools.getD i [] ∈ pools := by
  rw [List.getD_eq_getElem?_getD, List.getElem?_eq_getElem h]
  exact List.getElem_mem _

theorem fairFind_nil (used claimed : Finset String) :
    fairFind used claimed [] = none := rfl

theorem select_slotB_fair_some {pools : List (List RedditC)}
    {usedPlanned claimed : Finset String} {x : RedditC}
    (h : usedPlanned.card < 3)
    (hx : pools.findSome? (fairFind usedPlanned claimed) = some x) :
    select_slotB pools usedPlanned claimed = (some x, insert x.url claimed) := by
  unfold select_slotB
  rw [if_pos h, hx]

theorem select_slotB_unconstrained {pools : List (List RedditC)}
    {usedPlanned claimed : Finset String}
    (h : (if usedPlanned.card < 3 then
        pools.findSome? (fairFind usedPlanned claimed) else none) = none) :
    select_slotB pools usedPlanned claimed =
      (match poolsPickFirst pools claimed with
        | (some x, u) => (some x, insert x.url u)
        | (none, u) => (none, u)) := by
  unfold select_slotB
  rw [h]

/-- C3 (amended): the slot-B pick always comes from the first pool that
    yields a result under the active rule.  With the fairness constraint
    active (fewer than three groups used today), a tier yields only if it has
    a not-yet-claimed candidate from an unused group, and the pick is never
    from a later tier than any such tier; when the fairness constraint is off
    — because the ceiling is reached or because no pool holds a
    not-yet-claimed candidate from an unused group — the unconstrained
    cascade decides, and the pick is never from a later tier than any tier
    holding a not-yet-claimed candidate. -/
theorem slotB_first_eligible_tier (pools : List (List RedditC))
    (used claimed : Finset String) :
    (used.card < 3 →
      ∀ i, (∃ c ∈ pools.getD i [], c.url ∉ claimed ∧ c.subreddit ∉ used) →
        ∃ j x, j ≤ i ∧ (select_slotB pools used claimed).1 = some x ∧
          x ∈ pools.getD j [] ∧ x.url ∉ claimed ∧ x.subreddit ∉ used) ∧
    ((3 ≤ used.card ∨
        (∀ pool ∈ pools, ∀ c ∈ pool, c.url ∈ claimed ∨ c.subreddit ∈ used)) →
      ∀ i, (∃ c ∈ pools.getD i [], c.url ∉ claimed) →
        ∃ j x, j ≤ i ∧ (select_slotB pools used claimed).1 = some x ∧
          x ∈ pools.getD j [] ∧ x.url ∉ claimed) := by
  constructor
  · rintro hcard i ⟨c, hc, hcu, hcs⟩
    have hi : i < pools.length := by
      by_contra hi
      rw [getD_nil_of_len hi] at hc
      cases hc
    have hpred : (fun c : RedditC => decide (c.url ∉ claimed) &&
        decide (c.subreddit ∉ used)) c = true := by
      simp [hcu, hcs]
    rcases hfs : pools.findSome? (fairFind used claimed) with _ | x
    · exfalso
      have hall := List.findSome?_eq_none_iff.1 hfs (pools.getD i [])
        (getD_mem_of_lt hi)
      rw [fairFind, List.find?_eq_none] at hall
      exact hall c hc (by simp [hcu, hcs])
    · obtain ⟨j, hj, hearly⟩ :=
        findSome?_pools_some _ (fairFind_nil used claimed) pools x hfs
      have hji : j ≤ i := by
        by_contra hji
        have := hearly i (by omega)
        rw [fairFind, List.find?_eq_none] at this
        exact this c hc (by simp [hcu, hcs])
      have hpx := List.find?_some hj
      have hmx := List.mem_of_find?_eq_some hj
      rw [select_slotB_fair_some hcard hfs]
      refine ⟨j, x, hji, rfl, hmx, ?_, ?_⟩
      · have hdec := hpx
        simp only [Bool.and_eq_true, decide_eq_true_eq] at hdec
        exact hdec.1
      · have hdec := hpx
        simp only [Bool.and_eq_true, decide_eq_true_eq] at hdec
        exact hdec.2
  · rintro hoff i ⟨c, hc, hcu⟩
    have hi : i < pools.length := by
      by_contra hi
      rw [getD_nil_of_len hi] at hc
      cases hc
    have hfair : (if used.card < 3 then
        pools.findSome? (fairFind used claimed) else none) = none := by
      rcases hoff with hge | hall
      · exact if_neg (by omega)
      · by_cases hcard : used.card < 3
        · rw [if_pos hcard, List.findSome?_eq_none_iff]
          intro pool hpool
          rw [fairFind, List.find?_eq_none]
          intro d hdp hpred
          simp only [Bool.and_eq_true, decide_eq_true_eq] at hpred
          rcases hall pool hpool d hdp with hd | hd
          · exact hpred.1 hd
          · exact hpred.2 hd
        · exact if_neg hcard
    rcases hpp : (poolsPickFirst pools claimed).1 with _ | x
    · exfalso
      obtain ⟨_, hall⟩ := poolsPickFirst_none pools claimed hpp
      exact hcu (hall _ (getD_mem_of_lt hi) c hc)
    · obtain ⟨hxu, j, ⟨l₁, l₂, hsp, hl₁⟩, hearly⟩ :=
        poolsPickFirst_some pools claimed x hpp
      have hji : j ≤ i := by
        by_contra hji
        exact hcu (hearly i (by omega) c hc)
      refine ⟨j, x, hji, ?_, ?_, hxu⟩
      · rw [select_slotB_unconstrained hfair]
        rcases hpair : poolsPickFirst pools claimed with ⟨o, u⟩
        rw [hpair] at hpp
        simp only [] at hpp
        subst hpp
        rfl
      · rw [hsp]
        exact List.mem_append_right _ (List.mem_cons_self _ _)

/-- C3 counterexample: with the fairness constraint active (one group used
    today), tier 0 holds the not-yet-claimed candidate `exX`, yet the slot-B
    pick is `exY`, which lies only in a later tier. -/
theorem slotB_pick_from_later_tier_cex :
    (select_slotB (slotB_pools [exX, exY]) {"a"} ∅).1 = some exY ∧
      Finset.card {"a"} < 3 ∧
      exX ∈ (slotB_pools [exX, exY]).getD 0 [] ∧
      exX.url ∉ (∅ : Finset String) ∧
      exY ∉ (slotB_pools [exX, exY]).getD 0 [] := by decide

/-- Witness for C3 (amended): the fairness conjunct at the two-candidate
    instance (the eligible candidate sits in tier 3, and the pick comes from
    a tier no later than 3), and the unconstrained conjunct at a one-candidate
    instance where the fairness scan finds nothing because the only
    candidate's group is already used today. -/
theorem slotB_first_eligible_tier_witness :
    (∃ j x, j ≤ 3 ∧
      (select_slotB (slotB_pools [exX, exY]) {"a"} ∅).1 = some x ∧
      x ∈ (slotB_pools [exX, exY]).getD j [] ∧
      x.url ∉ (∅ : Finset String) ∧ x.subreddit ∉ ({"a"} : Finset String)) ∧
    (∃ j x, j ≤ 0 ∧
      (select_slotB (slotB_pools [exX]) {"a"} ∅).1 = some x ∧
      x ∈ (slotB_pools [exX]).getD j [] ∧ x.url ∉ (∅ : Finset String)) :=
  ⟨(slotB_first_eligible_tier (slotB_pools [exX, exY]) {"a"} ∅).1 (by decide) 3
      ⟨exY, by decide, by decide, by decide⟩,
    (slotB_first_eligible_tier (slotB_pools [exX]) {"a"} ∅).2
      (Or.inr (by decide)) 0 ⟨exX, by decide, by decide⟩⟩

theorem mem_slotB_pools_of_mem {reddit_all : List RedditC} {pool : List RedditC}
    (hpool : pool ∈ slotB_pools reddit_all) {d : RedditC} (hd : d ∈ pool) :
    d ∈ reddit_all ∧ d.subreddit ≠ lux_sub := by
  simp only [slotB_pools, List.mem_cons, List.not_mem_nil, or_false] at hpool
  rcases hpool with rfl | rfl | rfl | rfl
  all_goals
    rw [sortPop, List.mem_insertionSort, List.mem_filter] at hd
  all_goals refine ⟨hd.1, ?_⟩
  all_goals have hb := hd.2
  all_goals simp only [Bool.and_eq_true, bne_iff_ne] at hb
  · exact hb.1.1
  · exact hb.1
  · exact hb.1
  · exact hb

theorem mem_tier3 {reddit_all : List RedditC} {c : RedditC}
    (hc : c ∈ reddit_all) (hlux : c.subreddit ≠ lux_sub) :
    c ∈ (slotB_pools reddit_all).getD 3 [] := by
  show c ∈ sortPop (reddit_all.filter (fun x => x.subreddit != lux_sub))
  rw [sortPop, List.mem_insertionSort, List.mem_filter]
  exact ⟨hc, bne_iff_ne.2 hlux⟩

/-- C7 (amended): with fewer than three groups used today and some candidate
    from an unused group whose URL is not already claimed, slot B selects an
    unused-group, unclaimed candidate that is ranking-maximal among the
    eligible candidates of the first tier containing one; when the ceiling is
    reached or every unclaimed candidate's group is already used, slot B
    selects the unconstrained ranking-maximal unclaimed candidate of the
    first tier containing one. -/
theorem slotB_fairness_preference (reddit_all : List RedditC)
    (used claimed : Finset String) :
    (used.card < 3 →
      (∃ c ∈ reddit_all, c.subreddit ≠ lux_sub ∧ c.url ∉ claimed ∧
        c.subreddit ∉ used) →
      ∃ x j, (select_slotB (slotB_pools reddit_all) used claimed).1 = some x ∧
        x.url ∉ claimed ∧ x.subreddit ∉ used ∧
        x ∈ (slotB_pools reddit_all).getD j [] ∧
        (∀ c ∈ (slotB_pools reddit_all).getD j [],
          c.url ∉ claimed → c.subreddit ∉ used → redditGe x c) ∧
        (∀ k < j, ∀ c ∈ (slotB_pools reddit_all).getD k [],
          c.url ∈ claimed ∨ c.subreddit ∈ used)) ∧
    ((3 ≤ used.card ∨ (∀ c ∈ reddit_all, c.subreddit ≠ lux_sub →
          c.url ∉ claimed → c.subreddit ∈ used)) →
      (∃ c ∈ reddit_all, c.subreddit ≠ lux_sub ∧ c.url ∉ claimed) →
      ∃ x j, (select_slotB (slotB_pools reddit_all) used claimed).1 = some x ∧
        x.url ∉ claimed ∧ x ∈ (slotB_pools reddit_all).getD j [] ∧
        (∀ c ∈ (slotB_pools reddit_all).getD j [],
          c.url ∉ claimed → redditGe x c) ∧
        (∀ k < j, ∀ c ∈ (slotB_pools reddit_all).getD k [],
          c.url ∈ claimed)) := by
  constructor
  · rintro hcard ⟨c, hcm, hclux, hcu, hcs⟩
    have hc3 : c ∈ (slotB_pools reddit_all).getD 3 [] := mem_tier3 hcm hclux
    rcases hfs : (slotB_pools reddit_all).findSome? (fairFind used claimed)
      with _ | x
    · exfalso
      have hall := List.findSome?_eq_none_iff.1 hfs
        ((slotB_pools reddit_all).getD 3 [])
        (getD_mem_of_lt (by simp [slotB_pools]))
      rw [fairFind, List.find?_eq_none] at hall
      exact hall c hc3 (by simp [hcu, hcs])
    · obtain ⟨j, hj, hearly⟩ :=
        findSome?_pools_some _ (fairFind_nil used claimed) _ x hfs
      obtain ⟨hpx, l₁, l₂, hsp, hl₁⟩ := find?_split _ _ x hj
      simp only [Bool.and_eq_true, decide_eq_true_eq] at hpx
      rw [select_slotB_fair_some hcard hfs]
      refine ⟨x, j, rfl, hpx.1, hpx.2, ?_, ?_, ?_⟩
      · rw [hsp]
        exact List.mem_append_right _ (List.mem_cons_self _ _)
      · intro d hd hdu hds
        rw [hsp] at hd
        rcases List.mem_append.1 hd with hd1 | hd2
        · exfalso
          have hcontr := hl₁ d hd1
          simp [hdu, hds] at hcontr
        · rcases List.mem_cons.1 hd2 with rfl | hd3
          · exact redditGe_refl _
          · have hsorted := slotB_pools_getD_sorted reddit_all j
            rw [hsp] at hsorted
            exact pairwise_split_ge hsorted d hd3
      · intro k hk d hd
        have hnone := hearly k hk
        rw [fairFind, List.find?_eq_none] at hnone
        have hd' := hnone d hd
        by_contra hcon
        push_neg at hcon
        exact hd' (by simp [hcon.1, hcon.2])
  · rintro hdisj ⟨c, hcm, hclux, hcu⟩
    have hc3 : c ∈ (slotB_pools reddit_all).getD 3 [] := mem_tier3 hcm hclux
    have hfair : (if used.card < 3 then
        (slotB_pools reddit_all).findSome? (fairFind used claimed)
      else none) = none := by
      rcases hdisj with hge | hall
      · exact if_neg (by omega)
      · by_cases hcard : used.card < 3
        · rw [if_pos hcard, List.findSome?_eq_none_iff]
          intro pool hpool
          rw [fairFind, List.find?_eq_none]
          intro d hdp hpred
          obtain ⟨hdra, hdlux⟩ := mem_slotB_pools_of_mem hpool hdp
          simp only [Bool.and_eq_true, decide_eq_true_eq] at hpred
          exact hpred.2 (hall d hdra hdlux hpred.1)
        · exact if_neg hcard
    rcases hpp : (poolsPickFirst (slotB_pools reddit_all) claimed).1 with _ | x
    · exfalso
      obtain ⟨_, hall2⟩ := poolsPickFirst_none _ claimed hpp
      exact hcu (hall2 _ (getD_mem_of_lt (by simp [slotB_pools])) c hc3)
    · obtain ⟨hxu, j, ⟨l₁, l₂, hsp, hl₁⟩, hearly⟩ :=
        poolsPickFirst_some _ claimed x hpp
      refine ⟨x, j, ?_, hxu, ?_, ?_, hearly⟩
      · rw [select_slotB_unconstrained hfair]
        rcases hpair : poolsPickFirst (slotB_pools reddit_all) claimed with ⟨o, u⟩
        rw [hpair] at hpp
        simp only [] at hpp
        subst hpp
        rfl
      · rw [hsp]
        exact List.mem_append_right _ (List.mem_cons_self _ _)
      · intro d hd hdu
        rw [hsp] at hd
        rcases List.mem_append.1 hd with hd1 | hd2
        · exact absurd (hl₁ d hd1) hdu
        · rcases List.mem_cons.1 hd2 with rfl | hd3
          · exact redditGe_refl _
          · have hsorted := slotB_pools_getD_sorted reddit_all j
            rw [hsp] at hsorted
            exact pairwise_split_ge hsorted d hd3

/-- C7 counterexample: the fairness ceiling is not reached and candidate
    `exYc` comes from an unused group, yet the selected item `exZ` belongs to
    a group already used today — `exYc` is skipped because its URL is already
    claimed by slot A, and the claim as stated does not allow this. -/
theorem slotB_fairness_claimed_url_cex :
    (select_slotB (slotB_pools [exYc, exZ]) {"a", "Luxembourg"} {"u"}).1 =
        some exZ ∧
      Finset.card ({"a", "Luxembourg"} : Finset String) < 3 ∧
      exYc.subreddit ∉ ({"a", "Luxembourg"} : Finset String) ∧
      exZ.subreddit ∈ ({"a", "Luxembourg"} : Finset String) ∧
      exYc ∈ [exYc, exZ] ∧ exYc.subreddit ≠ lux_sub := by decide

/-- Witness for C7 (amended) at the concrete two-candidate instance. -/
theorem slotB_fairness_preference_witness :
    ∃ x j, (select_slotB (slotB_pools [exX, exY]) {"a"} ∅).1 = some x ∧
      x.url ∉ (∅ : Finset String) ∧ x.subreddit ∉ ({"a"} : Finset String) ∧
      x ∈ (slotB_pools [exX, exY]).getD j [] ∧
      (∀ c ∈ (slotB_pools [exX, exY]).getD j [],
        c.url ∉ (∅ : Finset String) → c.subreddit ∉ ({"a"} : Finset String) →
          redditGe x c) ∧
      (∀ k < j, ∀ c ∈ (slotB_pools [exX, exY]).getD k [],
        c.url ∈ (∅ : Finset String) ∨ c.subreddit ∈ ({"a"} : Finset String)) :=
  (slotB_fairness_preference [exX, exY] {"a"} ∅).1 (by decide)
    ⟨exY, by decide, by decide, by decide, by decide⟩

/-! URL-uniqueness invariants of the selectors. -/

theorem diversePass1_url_inv (limit : Nat) :
    ∀ (cands sel : List NewsC) (urls : Finset String) (tc : String → Nat),
      (∀ x ∈ sel, x.url ∈ urls) → (sel.map NewsC.url).Nodup →
      (∀ x ∈ (diversePass1 limit cands sel urls tc).1,
          x.url ∈ (diversePass1 limit cands sel urls tc).2.1) ∧
        ((diversePass1 limit cands sel urls tc).1.map NewsC.url).Nodup := by
  intro cands
  induction cands with
  | nil => intro sel urls tc h1 h2; exact ⟨h1, h2⟩
  | cons it rest ih =>
    intro sel urls tc h1 h2
    by_cases hstop : limit ≤ sel.length
    · rw [show diversePass1 limit (it :: rest) sel urls tc = (sel, urls, tc) from by
        simp [diversePass1, hstop]]
      exact ⟨h1, h2⟩
    · by_cases hurl : it.url ∈ urls
      · rw [show diversePass1 limit (it :: rest) sel urls tc =
            diversePass1 limit rest sel urls tc from by
          simp [diversePass1, hstop, hurl]]
        exact ih sel urls tc h1 h2
      · cases htop : it.topic with
        | none =>
          rw [show diversePass1 limit (it :: rest) sel urls tc =
              diversePass1 limit rest sel urls tc from by
            simp [diversePass1, hstop, hurl, htop]]
          exact ih sel urls tc h1 h2
        | some t =>
          by_cases hcond : t ≠ "" ∧ tc t = 0
          · rw [show diversePass1 limit (it :: rest) sel urls tc =
                diversePass1 limit rest (sel ++ [it]) (insert it.url urls)
                  (fun s => if s = t then 1 else tc s) from by
              simp [diversePass1, hstop, hurl, htop, hcond]]
            refine ih (sel ++ [it]) (insert it.url urls) _ ?_ ?_
            · intro x hx
              rcases List.mem_append.1 hx with hx' | hx'
              · exact Finset.mem_insert_of_mem (h1 x hx')
              · have hxit : x = it := by simpa using hx'
                subst hxit
                exact Finset.mem_insert_self _ _
            · rw [List.map_append, List.nodup_append]
              refine ⟨h2, List.nodup_singleton _, ?_⟩
              intro a ha hb
              have hait : a = it.url := by simpa using hb
              subst hait
              obtain ⟨y, hy, hyurl⟩ := List.mem_map.1 ha
              exact hurl (hyurl ▸ h1 y hy)
          · rw [show diversePass1 limit (it :: rest) sel urls tc =
                diversePass1 limit rest sel urls tc from by
              simp [diversePass1, hstop, hurl, htop, hcond]]
            exact ih sel urls tc h1 h2

theorem diversePass2_url_inv (limit : Nat) :
    ∀ (cands sel : List NewsC) (urls : Finset String) (tc : String → Nat),
      (∀ x ∈ sel, x.url ∈ urls) → (sel.map NewsC.url).Nodup →
      (∀ x ∈ (diversePass2 limit cands sel urls tc).1,
          x.url ∈ (diversePass2 limit cands sel urls tc).2.1) ∧
        ((diversePass2 limit cands sel urls tc).1.map NewsC.url).Nodup := by
  intro cands
  induction cands with
  | nil => intro sel urls tc h1 h2; exact ⟨h1, h2⟩
  | cons it rest ih =>
    intro sel urls tc h1 h2
    by_cases hstop : limit ≤ sel.length
    · rw [show diversePass2 limit (it :: rest) sel urls tc = (sel, urls, tc) from by
        simp [diversePass2, hstop]]
      exact ⟨h1, h2⟩
    · by_cases hurl : it.url ∈ urls
      · rw [show diversePass2 limit (it :: rest) sel urls tc =
            diversePass2 limit rest sel urls tc from by
          simp [diversePass2, hstop, hurl]]
        exact ih sel urls tc h1 h2
      · rw [show diversePass2 limit (it :: rest) sel urls tc =
            diversePass2 limit rest (sel ++ [it]) (insert it.url urls)
              (match it.topic with
                | some t => if t ≠ "" then (fun s => if s = t then tc s + 1 else tc s)
                  else tc
                | none => tc) from by
          simp [diversePass2, hstop, hurl]]
        refine ih (sel ++ [it]) (insert it.url urls) _ ?_ ?_
        · intro x hx
          rcases List.mem_append.1 hx with hx' | hx'
          · exact Finset.mem_insert_of_mem (h1 x hx')
          · have hxit : x = it := by simpa using hx'
            subst hxit
            exact Finset.mem_insert_self _ _
        · rw [List.map_append, List.nodup_append]
          refine ⟨h2, List.nodup_singleton _, ?_⟩
          intro a ha hb
          have hait : a = it.url := by simpa using hb
          subst hait
          obtain ⟨y, hy, hyurl⟩ := List.mem_map.1 ha
          exact hurl (hyurl ▸ h1 y hy)

theorem pick_news_diverse_url_inv (cands sel : List NewsC)
    (urls : Finset String) (limit : Nat)
    (h1 : ∀ x ∈ sel, x.url ∈ urls) (h2 : (sel.map NewsC.url).Nodup) :
    (∀ x ∈ (pick_news_diverse cands sel urls limit).1,
        x.url ∈ (pick_news_diverse cands sel urls limit).2) ∧
      ((pick_news_diverse cands sel urls limit).1.map NewsC.url).Nodup := by
  have hp1 := diversePass1_url_inv limit cands sel urls (init_tc sel) h1 h2
  exact diversePass2_url_inv limit cands _ _ _ hp1.1 hp1.2

theorem select_news_lux_inv (news_all_kw news_primary : List NewsC) :
    (∀ x ∈ (select_news_lux news_all_kw news_primary).1,
        x.url ∈ (select_news_lux news_all_kw news_primary).2) ∧
      ((select_news_lux news_all_kw news_primary).1.map NewsC.url).Nodup := by
  unfold select_news_lux
  by_cases hne : sortNews (news_primary.filter (fun x => x.lux_hit)) ≠ []
  · rw [if_pos hne]
    rcases hp : pick_first (fun x : NewsC => x.url)
        (sortNews (news_primary.filter (fun x => x.lux_hit))) ∅ with ⟨o, u⟩
    cases o with
    | none => exact ⟨fun x hx => absurd hx (List.not_mem_nil x), List.nodup_nil⟩
    | some f =>
      have hf := pick_first_some (fun x : NewsC => x.url) _ ∅ f (by rw [hp])
      have hu : u = insert f.url ∅ := by
        have h2 := hf.2.1
        rw [hp] at h2
        exact h2
      subst hu
      refine ⟨fun x hx => ?_, by simp⟩
      have hxf : x = f := by simpa using hx
      subst hxf
      exact Finset.mem_insert_self _ _
  · rw [if_neg hne]
    dsimp only
    rcases hp : pick_first (fun x : NewsC => x.url)
        (sortNews (news_all_kw.filter (fun x => x.lux_hit))) ∅ with ⟨o, u⟩
    cases o with
    | none => exact ⟨fun x hx => absurd hx (List.not_mem_nil x), List.nodup_nil⟩
    | some f =>
      have hf := pick_first_some (fun x : NewsC => x.url) _ ∅ f (by rw [hp])
      have hu : u = insert f.url ∅ := by
        have h2 := hf.2.1
        rw [hp] at h2
        exact h2
      subst hu
      refine ⟨fun x hx => ?_, by simp⟩
      have hxf : x = f := by simpa using hx
      subst hxf
      exact Finset.mem_insert_self _ _

theorem select_news_inv (news_all_kw news_primary : List NewsC) :
    (∀ x ∈ (select_news news_all_kw news_primary).1,
        x.url ∈ (select_news news_all_kw news_primary).2) ∧
      ((select_news news_all_kw news_primary).1.map NewsC.url).Nodup := by
  unfold select_news
  have h1 := select_news_lux_inv news_all_kw news_primary
  have h2 := pick_news_diverse_url_inv
    (sortNews (news_primary.filter
      (fun x => x.url ∉ (select_news_lux news_all_kw news_primary).2)))
    (select_news_lux news_all_kw news_primary).1
    (select_news_lux news_all_kw news_primary).2 OTHER_NEWS_COUNT h1.1 h1.2
  by_cases hlen : (pick_news_diverse
      (sortNews (news_primary.filter
        (fun x => x.url ∉ (select_news_lux news_all_kw news_primary).2)))
      (select_news_lux news_all_kw news_primary).1
      (select_news_lux news_all_kw news_primary).2 OTHER_NEWS_COUNT).1.length <
      OTHER_NEWS_COUNT
  · rw [if_pos hlen]
    exact pick_news_diverse_url_inv _ _ _ _ h2.1 h2.2
  · rw [if_neg hlen]
    exact h2

theorem select_news_full_nodup (store : Store) (now : Int)
    (news_items : List NItem) :
    ((select_news_full store now news_items).map NewsC.url).Nodup :=
  (select_news_inv _ _).2

theorem slotALoop_inv :
    ∀ (poolsA : List (List RedditC)) (urls : Finset String),
      (slotALoop poolsA urls).1.length ≤ 1 ∧
        ∀ x ∈ (slotALoop poolsA urls).1, x.url ∈ (slotALoop poolsA urls).2 := by
  intro poolsA
  induction poolsA with
  | nil =>
    intro urls
    exact ⟨by simp [slotALoop], fun x hx => by simp [slotALoop] at hx⟩
  | cons pool rest ih =>
    intro urls
    rcases hp : pick_first (fun x : RedditC => x.url) pool urls with ⟨o, u⟩
    have hred : slotALoop (pool :: rest) urls =
        (match pick_first (fun x : RedditC => x.url) pool urls with
          | (some p, u) => ([p], u)
          | (none, u) => slotALoop rest u) := rfl
    rw [hred, hp]
    cases o with
    | none => exact ih u
    | some p =>
      have hf := pick_first_some (fun x : RedditC => x.url) pool urls p
        (by rw [hp])
      have hu : u = insert p.url urls := by
        have h2 := hf.2.1
        rw [hp] at h2
        exact h2
      subst hu
      refine ⟨by simp, fun x hx => ?_⟩
      have hxp : x = p := by simpa using hx
      subst hxp
      exact Finset.mem_insert_self _ _

theorem matchPP_some_unclaimed {pools : List (List RedditC)}
    {claimed : Finset String} {x : RedditC}
    (h : (match poolsPickFirst pools claimed with
      | (some p, u) => (some p, insert p.url u)
      | (none, u) => ((none : Option RedditC), u)).1 = some x) :
    x.url ∉ claimed := by
  rcases hpp : poolsPickFirst pools claimed with ⟨o, u⟩
  rw [hpp] at h
  cases o with
  | none => simp at h
  | some p =>
    simp only [] at h
    injection h with h'
    subst h'
    exact (poolsPickFirst_some pools claimed _ (by rw [hpp])).1

theorem select_slotB_some_unclaimed {pools : List (List RedditC)}
    {used claimed : Finset String} {x : RedditC}
    (h : (select_slotB pools used claimed).1 = some x) : x.url ∉ claimed := by
  by_cases hcard : used.card < 3
  · rcases hfs : pools.findSome? (fairFind used claimed) with _ | y
    · rw [select_slotB_unconstrained (by rw [if_pos hcard, hfs])] at h
      exact matchPP_some_unclaimed h
    · rw [select_slotB_fair_some hcard hfs] at h
      simp only [] at h
      injection h with h'
      subst h'
      obtain ⟨j, hj, _⟩ := findSome?_pools_some _ (fairFind_nil _ _) _ _ hfs
      have hpx := List.find?_some hj
      simp only [Bool.and_eq_true, decide_eq_true_eq] at hpx
      exact hpx.1
  · rw [select_slotB_unconstrained (if_neg hcard)] at h
    exact matchPP_some_unclaimed h

theorem select_slotA_inv (reddit_all : List RedditC) :
    (select_slotA reddit_all).1.length ≤ 1 ∧
      ∀ x ∈ (select_slotA reddit_all).1, x.url ∈ (select_slotA reddit_all).2 :=
  slotALoop_inv _ _

theorem reddit_sel_inv (reddit_all : List RedditC) (used : Finset String) :
    ((select_slotA reddit_all).1 ++
        (match (select_slotB (slotB_pools reddit_all) used
            (select_slotA reddit_all).2).1 with
          | some x => [x] | none => [])).length ≤ 2 ∧
      (((select_slotA reddit_all).1 ++
        (match (select_slotB (slotB_pools reddit_all) used
            (select_slotA reddit_all).2).1 with
          | some x => [x] | none => [])).map RedditC.url).Nodup := by
  have hA := select_slotA_inv reddit_all
  rcases hpb : (select_slotB (slotB_pools reddit_all) used
      (select_slotA reddit_all).2).1 with _ | x
  · constructor
    · simpa using Nat.le_succ_of_le hA.1
    · rcases hsel : (select_slotA reddit_all).1 with _ | ⟨p, tail⟩
      · simp
      · have hlen := hA.1
        rw [hsel] at hlen
        have htail : tail = [] := by simpa using hlen
        subst htail
        simp
  · have hxu : x.url ∉ (select_slotA reddit_all).2 :=
      select_slotB_some_unclaimed (by rw [hpb])
    rcases hsel : (select_slotA reddit_all).1 with _ | ⟨p, tail⟩
    · exact ⟨by simp, by simp⟩
    · have hlen := hA.1
      rw [hsel] at hlen
      have htail : tail = [] := by simpa using hlen
      subst htail
      have hpu : p.url ∈ (select_slotA reddit_all).2 := by
        refine hA.2 p ?_
        rw [hsel]
        exact List.mem_cons_self _ _
      refine ⟨by simp, ?_⟩
      simp only [List.map_append, List.map_cons, List.map_nil]
      refine List.nodup_append.2 ⟨by simp, by simp, ?_⟩
      intro a ha hb
      have hap : a = p.url := by simpa using ha
      have hax : a = x.url := by simpa using hb
      subst hap
      rw [hax] at hpu
      exact hxu hpu

theorem select_reddit_full_inv (store : Store) (now : Int) (dayKey : String)
    (reddit_items : List RItem) :
    (select_reddit_full store now dayKey reddit_items).length ≤ 2 ∧
      ((select_reddit_full store now dayKey reddit_items).map RedditC.url).Nodup := by
  unfold select_reddit_full
  exact reddit_sel_inv _ _

theorem assemble_selected_facts (sr : List RedditC) (sn : List NewsC)
    (hr : (sr.map RedditC.url).Nodup) (hn : (sn.map NewsC.url).Nodup) :
    (assemble_selected sr sn).length ≤ TOTAL_PUSH_COUNT ∧
      ((assemble_selected sr sn).filter
        (fun d => d.isReddit)).length ≤ FIXED_REDDIT_COUNT ∧
      ((assemble_selected sr sn).filter
        (fun d => !d.isReddit)).length ≤ OTHER_NEWS_COUNT ∧
      (((assemble_selected sr sn).filter
        (fun d => d.isReddit)).map DigestItem.url).Nodup ∧
      (((assemble_selected sr sn).filter
        (fun d => !d.isReddit)).map DigestItem.url).Nodup := by
  unfold assemble_selected
  have hfR : ((sr.take FIXED_REDDIT_COUNT).map DigestItem.reddit ++
      (sn.take OTHER_NEWS_COUNT).map DigestItem.news).filter
        (fun d => d.isReddit) =
      (sr.take FIXED_REDDIT_COUNT).map DigestItem.reddit := by
    rw [List.filter_append, List.filter_map, List.filter_map]
    simp [Function.comp_def, DigestItem.isReddit]
  have hfN : ((sr.take FIXED_REDDIT_COUNT).map DigestItem.reddit ++
      (sn.take OTHER_NEWS_COUNT).map DigestItem.news).filter
        (fun d => !d.isReddit) =
      (sn.take OTHER_NEWS_COUNT).map DigestItem.news := by
    rw [List.filter_append, List.filter_map, List.filter_map]
    simp [Function.comp_def, DigestItem.isReddit]
  have hmR : ((sr.take FIXED_REDDIT_COUNT).map DigestItem.reddit).map
      DigestItem.url = (sr.map RedditC.url).take FIXED_REDDIT_COUNT := by
    rw [List.map_map, List.map_take]
    rfl
  have hmN : ((sn.take OTHER_NEWS_COUNT).map DigestItem.news).map
      DigestItem.url = (sn.map NewsC.url).take OTHER_NEWS_COUNT := by
    rw [List.map_map, List.map_take]
    rfl
  refine ⟨?_, ?_, ?_, ?_, ?_⟩
  · simp only [List.length_append, List.length_map, List.length_take]
    show min FIXED_REDDIT_COUNT sr.length + min OTHER_NEWS_COUNT sn.length ≤
      TOTAL_PUSH_COUNT
    have h1 : min FIXED_REDDIT_COUNT sr.length ≤ FIXED_REDDIT_COUNT :=
      Nat.min_le_left _ _
    have h2 : min OTHER_NEWS_COUNT sn.length ≤ OTHER_NEWS_COUNT :=
      Nat.min_le_left _ _
    calc min FIXED_REDDIT_COUNT sr.length + min OTHER_NEWS_COUNT sn.length ≤
        FIXED_REDDIT_COUNT + OTHER_NEWS_COUNT := Nat.add_le_add h1 h2
      _ ≤ TOTAL_PUSH_COUNT := by decide
  · rw [hfR]
    simp only [List.length_map, List.length_take]
    exact Nat.min_le_left _ _
  · rw [hfN]
    simp only [List.length_map, List.length_take]
    exact Nat.min_le_left _ _
  · rw [hfR, hmR]
    exact hr.sublist (List.take_sublist _ _)
  · rw [hfN, hmN]
    exact hn.sublist (List.take_sublist _ _)

/-- C4 (amended): every digest holds at most 5 items — at most 2 social
    (reddit) followed by at most 3 news — with no duplicate URLs within the
    social part and none within the news part.  A URL shared between a news
    item and a social item is, however, not deduplicated across the two
    categories (see the counterexample). -/
theorem digest_size_and_per_category_url_nodup (news_items : List NItem)
    (reddit_items : List RItem) (store : Store) (now : Int) (dayKey : String) :
    (run_main news_items reddit_items store now dayKey).selected.length ≤
        TOTAL_PUSH_COUNT ∧
      (((run_main news_items reddit_items store now dayKey).selected.filter
        (fun d => d.isReddit)).length ≤ FIXED_REDDIT_COUNT) ∧
      (((run_main news_items reddit_items store now dayKey).selected.filter
        (fun d => !d.isReddit)).length ≤ OTHER_NEWS_COUNT) ∧
      ((((run_main news_items reddit_items store now dayKey).selected.filter
        (fun d => d.isReddit)).map DigestItem.url).Nodup) ∧
      ((((run_main news_items reddit_items store now dayKey).selected.filter
        (fun d => !d.isReddit)).map DigestItem.url).Nodup) := by
  have hr := select_reddit_full_inv store now dayKey reddit_items
  have hn := select_news_full_nodup store now news_items
  have hfacts := assemble_selected_facts
    (select_reddit_full store now dayKey reddit_items)
    (select_news_full store now news_items) hr.2 hn
  unfold run_main
  dsimp only
  split
  · simp
  · exact hfacts

/-- C4 counterexample: on a news item and a reddit item sharing the URL "u"
    the digest selects both, so it contains the same URL twice — one from
    each category. -/
theorem digest_cross_category_duplicate_url_cex :
    ((run_main [exNews1] [exReddit1] exStore0 1000000 "d").selected.map
        DigestItem.url) = ["u", "u"] ∧
      ¬ (((run_main [exNews1] [exReddit1] exStore0 1000000 "d").selected.map
        DigestItem.url).Nodup) := by decide

/-! Store-write tracking for the final write loop. -/

theorem insertIgnore_key_mem {κ : Type} [BEq κ] [LawfulBEq κ]
    (tbl : List (κ × Int)) (k : κ) (ts : Int) (u : κ) :
    u ∈ (insertIgnore tbl k ts).map Prod.fst ↔
      u ∈ tbl.map Prod.fst ∨ u = k := by
  unfold insertIgnore
  by_cases h : tbl.any (fun r => r.1 == k) = true
  · rw [if_pos h]
    constructor
    · exact Or.inl
    · rintro (h' | rfl)
      · exact h'
      · obtain ⟨r, hr, hrk⟩ := List.any_eq_true.1 h
        exact List.mem_map.2 ⟨r, hr, eq_of_beq hrk⟩
  · rw [if_neg h, List.map_append]
    simp

theorem mark_subreddit_used_key_mem (st : Store) (day sub : String)
    (q : String × String) :
    q ∈ (mark_subreddit_used st day sub).subreddit_daily.map Prod.fst ↔
      q ∈ st.subreddit_daily.map Prod.fst ∨ q = (day, sub) := by
  unfold mark_subreddit_used
  dsimp only
  by_cases h : st.subreddit_daily.any (fun r => r.1 == (day, sub)) = true
  · rw [if_pos h]
    have hmap : ((st.subreddit_daily.map
        (fun r => if r.1 == (day, sub) then (r.1, r.2 + 1) else r)).map Prod.fst) =
        st.subreddit_daily.map Prod.fst := by
      rw [List.map_map]
      apply List.map_congr_left
      intro r _
      simp only [Function.comp_def]
      split <;> rfl
    rw [hmap]
    constructor
    · exact Or.inl
    · rintro (h' | rfl)
      · exact h'
      · obtain ⟨r, hr, hrk⟩ := List.any_eq_true.1 h
        exact List.mem_map.2 ⟨r, hr, eq_of_beq hrk⟩
  · rw [if_neg h, List.map_append]
    simp

theorem write_digest_step (dayKey : String) (ts : Int) (st : Store)
    (it : DigestItem) (rest : List DigestItem) :
    write_digest dayKey ts st (it :: rest) =
      write_digest dayKey ts
        (match it with
          | .reddit x =>
            mark_subreddit_used (mark_seen st it.url it.title_norm ts) dayKey
              x.subreddit
          | .news _ => mark_seen st it.url it.title_norm ts) rest := rfl

theorem write_digest_seen_mem (dayKey : String) (ts : Int) :
    ∀ (sel : List DigestItem) (st : Store) (u : String),
      u ∈ (write_digest dayKey ts st sel).seen.map Prod.fst ↔
        u ∈ st.seen.map Prod.fst ∨ ∃ it ∈ sel, DigestItem.url it = u := by
  intro sel
  induction sel with
  | nil => intro st u; simp [write_digest]
  | cons it rest ih =>
    intro st u
    rw [write_digest_step, ih]
    have hseen : (match it with
        | .reddit x =>
          mark_subreddit_used (mark_seen st it.url it.title_norm ts) dayKey
            x.subreddit
        | .news _ => mark_seen st it.url it.title_norm ts).seen =
        insertIgnore st.seen it.url ts := by
      cases it <;> rfl
    rw [hseen, insertIgnore_key_mem]
    simp only [List.mem_cons]
    constructor
    · rintro ((h | rfl) | ⟨x, hx, hxu⟩)
      · exact Or.inl h
      · exact Or.inr ⟨it, Or.inl rfl, rfl⟩
      · exact Or.inr ⟨x, Or.inr hx, hxu⟩
    · rintro (h | ⟨x, rfl | hx, hxu⟩)
      · exact Or.inl (Or.inl h)
      · exact Or.inl (Or.inr hxu.symm)
      · exact Or.inr ⟨x, hx, hxu⟩

theorem write_digest_title_mem (dayKey : String) (ts : Int) :
    ∀ (sel : List DigestItem) (st : Store) (tn : List Char),
      tn ∈ (write_digest dayKey ts st sel).seen_title.map Prod.fst ↔
        tn ∈ st.seen_title.map Prod.fst ∨
          ∃ it ∈ sel, DigestItem.title_norm it = tn := by
  intro sel
  induction sel with
  | nil => intro st tn; simp [write_digest]
  | cons it rest ih =>
    intro st tn
    rw [write_digest_step, ih]
    have htitle : (match it with
        | .reddit x =>
          mark_subreddit_used (mark_seen st it.url it.title_norm ts) dayKey
            x.subreddit
        | .news _ => mark_seen st it.url it.title_norm ts).seen_title =
        insertIgnore st.seen_title it.title_norm ts := by
      cases it <;> rfl
    rw [htitle, insertIgnore_key_mem]
    simp only [List.mem_cons]
    constructor
    · rintro ((h | rfl) | ⟨x, hx, hxu⟩)
      · exact Or.inl h
      · exact Or.inr ⟨it, Or.inl rfl, rfl⟩
      · exact Or.inr ⟨x, Or.inr hx, hxu⟩
    · rintro (h | ⟨x, rfl | hx, hxu⟩)
      · exact Or.inl (Or.inl h)
      · exact Or.inl (Or.inr hxu.symm)
      · exact Or.inr ⟨x, hx, hxu⟩

theorem write_digest_quota_mem (dayKey : String) (ts : Int) :
    ∀ (sel : List DigestItem) (st : Store) (q : String × String),
      q ∈ (write_digest dayKey ts st sel).subreddit_daily.map Prod.fst ↔
        q ∈ st.subreddit_daily.map Prod.fst ∨
          ∃ x : RedditC, DigestItem.reddit x ∈ sel ∧ q = (dayKey, x.subreddit) := by
  intro sel
  induction sel with
  | nil => intro st q; simp [write_digest]
  | cons it rest ih =>
    intro st q
    rw [write_digest_step, ih]
    cases it with
    | news n =>
      have hq : (mark_seen st (DigestItem.news n).url
          (DigestItem.news n).title_norm ts).subreddit_daily =
          st.subreddit_daily := rfl
      rw [hq]
      simp only [List.mem_cons]
      constructor
      · rintro (h | ⟨x, hx, hxq⟩)
        · exact Or.inl h
        · exact Or.inr ⟨x, Or.inr hx, hxq⟩
      · rintro (h | ⟨x, hx | hx, hxq⟩)
        · exact Or.inl h
        · cases hx
        · exact Or.inr ⟨x, hx, hxq⟩
    | reddit r =>
      have hq : (mark_subreddit_used (mark_seen st (DigestItem.reddit r).url
          (DigestItem.reddit r).title_norm ts) dayKey r.subreddit).subreddit_daily.map
            Prod.fst = (mark_subreddit_used st dayKey r.subreddit).subreddit_daily.map
            Prod.fst := rfl
      rw [hq, mark_subreddit_used_key_mem]
      simp only [List.mem_cons]
      constructor
      · rintro ((h | rfl) | ⟨x, hx, hxq⟩)
        · exact Or.inl h
        · exact Or.inr ⟨r, Or.inl rfl, rfl⟩
        · exact Or.inr ⟨x, Or.inr hx, hxq⟩
      · rintro (h | ⟨x, hx | hx, hxq⟩)
        · exact Or.inl (Or.inl h)
        · have hxr : x = r := by injection hx
          subst hxr
          exact Or.inl (Or.inr hxq)
        · exact Or.inr ⟨x, hx, hxq⟩

/-- C5: the sentinel message is emitted exactly when the selection is empty,
    in which case the store is unchanged (no History Store or quota writes);
    otherwise a key is in the post-run store exactly when it was there before
    or belongs to an item of the final digest: URLs and normalised titles of
    digest items, and (dayKey, subreddit) quota rows of digest reddit items —
    so writes happen only for items that end up in the digest, never for
    items merely considered. -/
theorem run_main_store_writes_exactly_digest (news_items : List NItem)
    (reddit_items : List RItem) (store : Store) (now : Int) (dayKey : String) :
    ((run_main news_items reddit_items store now dayKey).sentinel = true ↔
      (run_main news_items reddit_items store now dayKey).selected = []) ∧
      ((run_main news_items reddit_items store now dayKey).sentinel = true →
        (run_main news_items reddit_items store now dayKey).store = store) ∧
      (∀ u : String,
        u ∈ (run_main news_items reddit_items store now dayKey).store.seen.map
            Prod.fst ↔
          u ∈ store.seen.map Prod.fst ∨
            ∃ it ∈ (run_main news_items reddit_items store now dayKey).selected,
              DigestItem.url it = u) ∧
      (∀ tn : List Char,
        tn ∈ (run_main news_items reddit_items store now
            dayKey).store.seen_title.map Prod.fst ↔
          tn ∈ store.seen_title.map Prod.fst ∨
            ∃ it ∈ (run_main news_items reddit_items store now dayKey).selected,
              DigestItem.title_norm it = tn) ∧
      (∀ q : String × String,
        q ∈ (run_main news_items reddit_items store now
            dayKey).store.subreddit_daily.map Prod.fst ↔
          q ∈ store.subreddit_daily.map Prod.fst ∨
            ∃ x : RedditC,
              DigestItem.reddit x ∈
                  (run_main news_items reddit_items store now dayKey).selected ∧
                q = (dayKey, x.subreddit)) := by
  unfold run_main
  dsimp only
  split
  · refine ⟨by simp, fun _ => rfl, ?_, ?_, ?_⟩
    · intro u
      simp
    · intro tn
      simp
    · intro q
      simp
  · rename_i hne
    refine ⟨?_, ?_, ?_, ?_, ?_⟩
    · simp only []
      constructor
      · intro habs
        cases habs
      · intro habs
        exact absurd habs hne
    · intro habs
      cases habs
    · intro u
      exact write_digest_seen_mem dayKey now _ store u
    · intro tn
      exact write_digest_title_mem dayKey now _ store tn
    · intro q
      exact write_digest_quota_mem dayKey now _ store q

/-- Witness for C5: on empty inputs the run is the sentinel and the store is
    untouched. -/
theorem run_main_store_writes_exactly_digest_witness :
    (run_main [] [] exStore0 1000000 "d").store = exStore0 :=
  (run_main_store_writes_exactly_digest [] [] exStore0 1000000 "d").2.1
    (by decide)
